import Mathlib

/-!
# Minipack: dependency-graph construction and the emitted module loader

A shallow embedding of `src/lib/bundler.js` (class `Bundler`) and of the loader
that `generateCode` emits.

* The external collaborators (`fs`, `@babel/parser`, `@babel/traverse`,
  `@babel/core`, `JSON.stringify`) are fields of an environment record `Env`;
  a call that throws returns `none` there.
* The three functions of Node's `path` module that the bundler calls
  (`resolve`, `relative`, `dirname`) are modelled in the namespace `PosixPath`,
  with the POSIX semantics (separator `/`); the project root `process.cwd()` is
  an absolute path.
* JavaScript objects used as string-keyed dictionaries are association lists
  of their own properties in insertion order (`setOwn`, `objGet`).  An
  assignment to the key `__proto__` makes no own property: `objSet` ignores it
  for a string value, `graphSet` records the new prototype of the graph.
  `Object.values` lists array-index keys first (`objValues`, `objKeys`).
* The `for` loop of `buildDependencyGraph` runs on explicit fuel, one unit per
  iteration: the result `none` means that the loop was still running when the
  fuel ran out.  Next to its result, a build returns the arguments of the
  `parseFile` calls it made, in call order.
* `bundle` returns its outcome together with the writes it made.
* The loader `run` of the emitted program works on a store of `exports`
  objects and on the inlined graph, whose objects inherit from
  `Object.prototype`; what the code of a module does under `eval` is given by
  a function from code text to a list of `require` calls and `exports`
  assignments.
-/

namespace Minipack

/-! ## Node's POSIX `path` module -/

namespace PosixPath

/-- Cut a character sequence at every forward slash. -/
def splitSlash : List Char → List (List Char)
  | [] => [[]]
  | c :: cs =>
    if c = '/' then [] :: splitSlash cs
    else
      match splitSlash cs with
      | [] => [[c]]
      | s :: ss => (c :: s) :: ss

/-- Join segments with a forward slash between neighbours. -/
def joinSlash : List (List Char) → List Char
  | [] => []
  | [s] => s
  | s :: t :: rest => s ++ '/' :: joinSlash (t :: rest)

/-- One segment of `normalizeString`: the stack holds the segments kept so far,
last segment first.  An empty segment and `.` are dropped; `..` removes the
last kept segment unless there is none or it is itself `..`, in which case
`..` is kept only when `allowAboveRoot` holds; any other segment is kept. -/
def normStep (allowAboveRoot : Bool) (stack : List (List Char)) (seg : List Char) :
    List (List Char) :=
  if seg = [] then stack
  else if seg = ['.'] then stack
  else if seg = ['.', '.'] then
    match stack with
    | [] => if allowAboveRoot then [seg] else []
    | top :: rest =>
      if top = ['.', '.'] then (if allowAboveRoot then seg :: stack else stack)
      else rest
  else seg :: stack

/-- Node's `normalizeString(path, allowAboveRoot, '/', isPosixPathSeparator)`. -/
def normalizeString (path : List Char) (allowAboveRoot : Bool) : List Char :=
  joinSlash ((splitSlash path).foldl (normStep allowAboveRoot) []).reverse

/-- The right-to-left loop of `path.resolve`: `paths` are the arguments last
first, followed by the working directory; the loop stops at the first
absolute one. -/
def resolveLoop : List (List Char) → List Char → List Char × Bool
  | [], acc => (acc, false)
  | p :: ps, acc =>
    if p = [] then resolveLoop ps acc
    else if p.head? = some '/' then (p ++ '/' :: acc, true)
    else resolveLoop ps (p ++ '/' :: acc)

/-- Node's `path.posix.resolve(...args)` in working directory `cwd`. -/
def resolveChars (cwd : List Char) (args : List (List Char)) : List Char :=
  let r := resolveLoop (args.reverse ++ [cwd]) []
  let n := normalizeString r.1 (!r.2)
  if r.2 then '/' :: n else if n = [] then ['.'] else n

/-- The segments of a resolved absolute path (the text after its leading slash). -/
def absSegs (p : List Char) : List (List Char) :=
  (splitSlash (p.drop 1)).filter (fun s => s ≠ [])

/-- Drop the longest common prefix of two segment lists. -/
def dropCommon : List (List Char) → List (List Char) → List (List Char) × List (List Char)
  | a :: as, b :: bs => if a = b then dropCommon as bs else (a :: as, b :: bs)
  | as, bs => (as, bs)

/-- Node's `path.posix.relative(from, to)` (here `src`, `dst`) in working directory `cwd`: both
paths are resolved; one `..` per segment of `from` below the common prefix,
then the segments of `to` below the common prefix.  (This is what Node's
character loop computes on resolved absolute paths.) -/
def relativeChars (cwd src dst : List Char) : List Char :=
  if src = dst then []
  else
    let f := resolveChars cwd [src]
    let t := resolveChars cwd [dst]
    if f = t then []
    else
      let d := dropCommon (absSegs f) (absSegs t)
      joinSlash (List.replicate d.1.length ['.', '.'] ++ d.2)

/-- Node's `path.posix.dirname(path)`. -/
def dirnameChars : List Char → List Char
  | [] => ['.']
  | c0 :: rest =>
    match ((rest.reverse.dropWhile (fun c => c = '/')).dropWhile (fun c => c ≠ '/')) with
    | [] => if c0 = '/' then ['/'] else ['.']
    | _ :: r => if c0 = '/' ∧ r = [] then ['/', '/'] else c0 :: r.reverse

/-- The function `resolve` on strings. -/
def resolve (cwd : String) (args : List String) : String :=
  String.mk (resolveChars cwd.data (args.map String.data))

/-- The function `relative` on strings. -/
def relative (cwd src dst : String) : String :=
  String.mk (relativeChars cwd.data src.data dst.data)

/-- The function `dirname` on strings. -/
def dirname (p : String) : String :=
  String.mk (dirnameChars p.data)

end PosixPath

/-! ## JavaScript objects used as dictionaries -/

/-- The own property `k` of an object is created or overwritten: an existing key
keeps its place and takes the new value, a new key goes to the end. -/
def setOwn {α : Type} : List (String × α) → String → α → List (String × α)
  | [], k, v => [(k, v)]
  | (k0, v0) :: rest, k, v =>
    if k0 = k then (k, v) :: rest else (k0, v0) :: setOwn rest k v

/-- The assignment `o[k] = v` of a string `v` to a property of a plain object
(`dependencies[dep] = depRelPath`, `exports[name] = value`).  For the key
`__proto__` the assignment reaches the setter of `Object.prototype`, which
ignores a value that is not an object: nothing changes. -/
def objSet (o : List (String × String)) (k : String) (v : String) : List (String × String) :=
  if k = "__proto__" then o else setOwn o k v

/-- The own property `o[k]`; `none` when `o` has no own property `k`. -/
def objGet {α : Type} : List (String × α) → String → Option α
  | [], _ => none
  | (k0, v0) :: rest, k => if k0 = k then some v0 else objGet rest k

/-- The integer that the key `k` denotes when `k` is an array index: the
canonical decimal numeral of an integer below `2^32 - 1`. -/
def arrayIndex (k : String) : Option Nat :=
  match k.data with
  | [] => none
  | c :: cs =>
    if (c :: cs).all Char.isDigit && (c != '0' || cs.isEmpty) then
      let n := (c :: cs).foldl (fun acc d => 10 * acc + (d.toNat - 48)) 0
      if n < 4294967295 then some n else none
    else none

/-- The order of an array-index key among the array-index keys. -/
def indexRank {α : Type} (kv : String × α) : Nat := (arrayIndex kv.1).getD 0

/-- The own properties in the order in which `Object.keys` and `Object.values`
list them: array-index keys first, ascending, then the other keys in
insertion order. -/
def ownEntries {α : Type} (o : List (String × α)) : List (String × α) :=
  (o.filter (fun kv => (arrayIndex kv.1).isSome)).insertionSort
      (fun x y => indexRank x ≤ indexRank y) ++
    o.filter (fun kv => !(arrayIndex kv.1).isSome)

/-- The list `Object.keys(o)`. -/
def objKeys {α : Type} (o : List (String × α)) : List String := (ownEntries o).map Prod.fst

/-- The list `Object.values(o)`. -/
def objValues {α : Type} (o : List (String × α)) : List α := (ownEntries o).map Prod.snd

/-! ## Data -/

deriving instance DecidableEq for Except

/-- What `parseFile` returns: `{ dependencies, code, path }`. -/
structure FileInfo where
  dependencies : List (String × String)
  code : String
  path : String
  deriving DecidableEq, Repr

/-- A value of the graph: `{ dependencies, code }`. -/
structure ModuleRecord where
  dependencies : List (String × String)
  code : String
  deriving DecidableEq, Repr

/-- The object `graph`: its own properties, keyed by module path, and the
record that an assignment to `__proto__` has made its prototype, if any. -/
structure Graph where
  props : List (String × ModuleRecord)
  proto : Option ModuleRecord
  deriving DecidableEq, Repr

/-- The assignment `graph[path] = record`.  For the path `__proto__` the
assignment reaches the setter of `Object.prototype`: the record becomes the
prototype of `graph` and no own property is made. -/
def graphSet (graph : Graph) (path : String) (record : ModuleRecord) : Graph :=
  if path = "__proto__" then { graph with proto := some record }
  else { graph with props := setOwn graph.props path record }

/-- The exception that leaves `bundle`, by the call that threw it. -/
inductive BuildError where
  /-- Thrown by `fs.readFileSync(fileAbsPath)`. -/
  | readError (fileAbsPath : String)
  /-- Thrown by `parser.parse(fileContent)`. -/
  | parseError (fileAbsPath : String)
  /-- Thrown by `babel.transformFromAst(ast)`. -/
  | transformError (fileAbsPath : String)
  /-- Thrown by `resolve(this.output.path)` when the path is `undefined`. -/
  | typeError
  /-- Thrown by `fs.mkdirSync(distPath)`. -/
  | mkdirError (distPath : String)
  /-- Thrown by `fs.writeFileSync(file, code)`. -/
  | writeError (file : String)
  deriving DecidableEq, Repr

/-- The world outside the bundler: the working directory, the file system,
the Babel parser, traversal and transformer, and `JSON.stringify`. -/
structure Env (Ast : Type) where
  /-- The value of `process.cwd()`. -/
  cwd : String
  /-- The call `fs.readFileSync(p, 'utf-8')`; `none` when it throws. -/
  readFileSync : String → Option String
  /-- The call `parser.parse(content)`; `none` when it throws. -/
  parse : String → Option Ast
  /-- The `node.source.value` of each `ImportDeclaration`, in visiting order. -/
  importSources : Ast → List String
  /-- The `code` of `babel.transformFromAst(ast)`; `none` when it throws. -/
  transformFromAst : Ast → Option String
  /-- The call `JSON.stringify(graph)`, which sees the own properties only. -/
  stringify : Graph → String
  /-- The call `fs.existsSync(p)`. -/
  existsSync : String → Bool
  /-- Whether `fs.mkdirSync(p)` succeeds. -/
  mkdirSucceeds : String → Bool
  /-- Whether `fs.writeFileSync(p, code)` succeeds. -/
  writeSucceeds : String → Bool

/-- The `output` option; a missing field is `undefined`. -/
structure OutputOptions where
  path : Option String
  filename : Option String
  deriving DecidableEq, Repr

/-- The constructor's argument; a missing field is `undefined`. -/
structure Options where
  entry : Option String
  output : Option OutputOptions
  deriving DecidableEq, Repr

/-- The fields of a `Bundler` instance. -/
structure Bundler where
  entry : String
  output : OutputOptions
  rootDir : String
  deriving DecidableEq, Repr

/-- A write to the file system. -/
inductive FsOp where
  | mkdir (distPath : String)
  | writeFile (file : String) (content : String)
  deriving DecidableEq, Repr

/-! ## The class `Bundler` -/

/-- The expression `s || d` for a string or `undefined`: the empty string and
`undefined` are falsy. -/
def orDefault (s : Option String) (d : String) : String :=
  match s with
  | none => d
  | some v => if v = "" then d else v

/-- The constructor. -/
def Bundler.new {Ast : Type} (env : Env Ast) (options : Options) : Bundler :=
  { rootDir := env.cwd
    entry := orDefault options.entry "./src/index.js"
    output :=
      match options.output with
      | some output => output
      | none => { path := some "./dist", filename := some "bundle.js" } }

/-- The method `parseFile(fileRelPath)`. -/
def parseFile {Ast : Type} (env : Env Ast) (b : Bundler) (fileRelPath : String) :
    Except BuildError FileInfo :=
  let rootDir := b.rootDir
  let fileAbsPath := PosixPath.resolve env.cwd [rootDir, fileRelPath]
  let dirAbsPath := PosixPath.dirname fileAbsPath
  match env.readFileSync fileAbsPath with
  | none => .error (.readError fileAbsPath)
  | some fileContent =>
    match env.parse fileContent with
    | none => .error (.parseError fileAbsPath)
    | some ast =>
      let dependencies :=
        (env.importSources ast).foldl
          (fun deps dep =>
            let depAbsPath := PosixPath.resolve env.cwd [dirAbsPath, dep]
            let depRelPath := PosixPath.relative env.cwd rootDir depAbsPath
            objSet deps dep depRelPath)
          []
      match env.transformFromAst ast with
      | none => .error (.transformError fileAbsPath)
      | some code => .ok { dependencies := dependencies, code := code, path := fileRelPath }

/-- The `forEach` over `Object.values(dependencies)`: each value is parsed and
pushed on `tasks`; `calls` records the arguments of `parseFile` in call order.
The first exception ends the walk. -/
def parseDeps {Ast : Type} (env : Env Ast) (b : Bundler) :
    List String → List FileInfo → List String → List String × Except BuildError (List FileInfo)
  | [], tasks, calls => (calls, .ok tasks)
  | dep :: deps, tasks, calls =>
    match parseFile env b dep with
    | .error e => (calls ++ [dep], .error e)
    | .ok depInfo => parseDeps env b deps (tasks ++ [depInfo]) (calls ++ [dep])

/-- The loop `for (let i = 0; i < tasks.length; i++)`, one iteration per unit of
fuel; `none` when the fuel runs out before the loop ends. -/
def buildLoop {Ast : Type} (env : Env Ast) (b : Bundler) :
    Nat → Nat → List FileInfo → List String →
      Option (List String × Except BuildError (List FileInfo))
  | 0, _, _, _ => none
  | fuel + 1, i, tasks, calls =>
    match tasks.get? i with
    | none => some (calls, .ok tasks)
    | some fileInfo =>
      match parseDeps env b (objValues fileInfo.dependencies) tasks calls with
      | (calls1, .error e) => some (calls1, .error e)
      | (calls1, .ok tasks1) => buildLoop env b fuel (i + 1) tasks1 calls1

/-- The final `tasks.forEach` that fills `graph`. -/
def graphOfTasks (tasks : List FileInfo) : Graph :=
  tasks.foldl
    (fun graph fileInfo =>
      graphSet graph fileInfo.path
        { dependencies := fileInfo.dependencies, code := fileInfo.code })
    { props := [], proto := none }

/-- The method `buildDependencyGraph(fileRelPath)`.  The result carries the
arguments of all `parseFile` calls made, in order. -/
def buildDependencyGraph {Ast : Type} (env : Env Ast) (b : Bundler) (fuel : Nat)
    (fileRelPath : String) : Option (List String × Except BuildError Graph) :=
  match parseFile env b fileRelPath with
  | .error e => some ([fileRelPath], .error e)
  | .ok rootFileInfo =>
    match buildLoop env b fuel 0 [rootFileInfo] [fileRelPath] with
    | none => none
    | some (calls, .error e) => some (calls, .error e)
    | some (calls, .ok tasks) => some (calls, .ok (graphOfTasks tasks))

/-- The text that `generateCode` builds around the entry and the serialized graph. -/
def bundleTemplate (entry graphJson : String) : String :=
  "\n            (function(graph) \x7b\n" ++
  "                // 运行一个模块的代码\n" ++
  "                function run(module) \x7b\n" ++
  "                    // 注入export到内部代码中\n" ++
  "                    var exports = \x7b\x7d;\n" ++
  "                    // 注入require到内部代码中\n" ++
  "                    function require(path) \x7b\n" ++
  "                        return run(graph[module].dependencies[path]);\n" ++
  "                    \x7d\n" ++
  "                    // 执行该模块的代码\n" ++
  "                    eval(graph[module].code);\n" ++
  "                    // 返回导出对象\n" ++
  "                    return exports;\n" ++
  "                \x7d\n" ++
  "                // 运行入口模块的代码\n" ++
  "                run('" ++ entry ++ "');\n" ++
  "            \x7d)(" ++ graphJson ++ ");\n        "

/-- The method `generateCode(entry)`. -/
def generateCode {Ast : Type} (env : Env Ast) (b : Bundler) (fuel : Nat) (entry : String) :
    Option (List String × Except BuildError String) :=
  match buildDependencyGraph env b fuel entry with
  | none => none
  | some (calls, .error e) => some (calls, .error e)
  | some (calls, .ok graph) => some (calls, .ok (bundleTemplate entry (env.stringify graph)))

/-- The text of a template placeholder holding a string or `undefined`. -/
def interpolate : Option String → String
  | none => "undefined"
  | some s => s

/-- The method `bundle()`: the outcome and the writes made, in order. -/
def bundle {Ast : Type} (env : Env Ast) (b : Bundler) (fuel : Nat) :
    Option (Except BuildError Unit × List FsOp) :=
  match generateCode env b fuel b.entry with
  | none => none
  | some (_, .error e) => some (.error e, [])
  | some (_, .ok code) =>
    match b.output.path with
    | none => some (.error .typeError, [])
    | some outPath =>
      let distPath := PosixPath.resolve env.cwd [outPath]
      let file := PosixPath.resolve env.cwd [distPath, "./" ++ interpolate b.output.filename]
      if env.existsSync distPath then
        if env.writeSucceeds file then some (.ok (), [.writeFile file code])
        else some (.error (.writeError file), [])
      else if env.mkdirSucceeds distPath then
        if env.writeSucceeds file then some (.ok (), [.mkdir distPath, .writeFile file code])
        else some (.error (.writeError file), [.mkdir distPath])
      else some (.error (.mkdirError distPath), [])

/-! ## Sample projects -/

/-- A project given by a table: absolute path, import specifiers, code.  The
content of a file is its own path, which the parser maps back to the row. -/
def tableEnv (cwd : String) (files : List (String × List String × String)) :
    Env (List String × String) :=
  { cwd := cwd
    readFileSync := fun p => if (files.map Prod.fst).contains p then some p else none
    parse := fun content => (files.lookup content)
    importSources := fun ast => ast.1
    transformFromAst := fun ast => some ast.2
    stringify := fun graph => String.join ((objKeys graph.props).map (fun k => k ++ ";"))
    existsSync := fun _ => false
    mkdirSucceeds := fun _ => true
    writeSucceeds := fun _ => true }

/-- A diamond: `a` imports `b` and `c`, both import `lib/d`. -/
def diamondEnv : Env (List String × String) :=
  tableEnv "/proj"
    [("/proj/src/a.js", ["./b.js", "./c.js"], "A"),
     ("/proj/src/b.js", ["./lib/d.js"], "B"),
     ("/proj/src/c.js", ["./lib/d.js"], "C"),
     ("/proj/src/lib/d.js", [], "D")]

/-- A cycle: `a` imports `b` and `b` imports `a`. -/
def cycleEnv : Env (List String × String) :=
  tableEnv "/proj"
    [("/proj/a.js", ["./b.js"], "A"),
     ("/proj/b.js", ["./a.js"], "B")]

/-- The step of the final `forEach`. -/
def graphStep (graph : Graph) (fileInfo : FileInfo) : Graph :=
  graphSet graph fileInfo.path
    { dependencies := fileInfo.dependencies, code := fileInfo.code }

/-- The bundler of the diamond project, entry `./src/a.js`. -/
def diamondBundler : Bundler :=
  Bundler.new diamondEnv { entry := some "./src/a.js", output := none }

/-- The graph that `buildDependencyGraph` returns for the diamond project. -/
def diamondGraph : Graph :=
  { props :=
      [("./src/a.js",
          { dependencies := [("./b.js", "src/b.js"), ("./c.js", "src/c.js")], code := "A" }),
       ("src/b.js", { dependencies := [("./lib/d.js", "src/lib/d.js")], code := "B" }),
       ("src/c.js", { dependencies := [("./lib/d.js", "src/lib/d.js")], code := "C" }),
       ("src/lib/d.js", { dependencies := [], code := "D" })]
    proto := none }

/-- A project whose entry `a.js` imports `./__proto__`, a file of that name in
the project root. -/
def protoEnv : Env (List String × String) :=
  tableEnv "/proj"
    [("/proj/a.js", ["./__proto__"], "A"),
     ("/proj/__proto__", [], "P")]

/-- The bundler of that project, entry `a.js`. -/
def protoBundler : Bundler :=
  Bundler.new protoEnv { entry := some "a.js", output := none }

/-- The graph that `buildDependencyGraph` returns for that project: one own
property, and the record of the file `__proto__` as prototype. -/
def protoGraph : Graph :=
  { props := [("a.js", { dependencies := [("./__proto__", "__proto__")], code := "A" })]
    proto := some { dependencies := [], code := "P" } }

/-- The `parseFile` calls of the diamond build, in order. -/
def diamondCalls : List String :=
  ["./src/a.js", "src/b.js", "src/c.js", "src/lib/d.js", "src/lib/d.js"]

/-- The bundler of the cycle project, entry `a.js`. -/
def cycleBundler : Bundler :=
  Bundler.new cycleEnv { entry := some "a.js", output := none }

/-- The absolute path `depAbsPath` that `parseFile(fileRelPath)` computes for
the specifier `dep` of an import (bundler.js, line 48). -/
def depAbsPath (cwd rootDir fileRelPath dep : String) : String :=
  PosixPath.resolve cwd [PosixPath.dirname (PosixPath.resolve cwd [rootDir, fileRelPath]), dep]

/-- The identity `depRelPath` that `parseFile(fileRelPath)` records for the
specifier `dep` of an import (bundler.js, line 50). -/
def depRelPath (cwd rootDir fileRelPath dep : String) : String :=
  PosixPath.relative cwd rootDir (depAbsPath cwd rootDir fileRelPath dep)

/-- A project with the single file `src/index.js`. -/
def singleEnv : Env (List String × String) :=
  tableEnv "/proj" [("/proj/src/index.js", [], "I")]

/-- The bundler of the single-file project, built with no options. -/
def singleBundler : Bundler :=
  Bundler.new singleEnv { entry := none, output := none }

/-- Two directories `p` and `q`, each with a module `m.js` that imports `./x`. -/
def isolationEnv : Env (List String × String) :=
  tableEnv "/proj"
    [("/proj/p/m.js", ["./x"], "PM"),
     ("/proj/q/m.js", ["./x"], "QM"),
     ("/proj/p/x", [], "PX"),
     ("/proj/q/x", [], "QX")]

/-- The bundler of the two-directory project. -/
def isolationBundler : Bundler :=
  Bundler.new isolationEnv { entry := some "p/m.js", output := none }

/-- Within `d` imports below `m` (`m` included) there is a module on which
`parseFile` throws. -/
def failWithin {Ast : Type} (env : Env Ast) (b : Bundler) : Nat → String → Bool
  | 0, m =>
    match parseFile env b m with
    | .ok _ => false
    | .error _ => true
  | d + 1, m =>
    match parseFile env b m with
    | .ok info => (objValues info.dependencies).any (failWithin env b d)
    | .error _ => true

/-- A project whose entry `src/index.js` imports `./missing`, which does not exist. -/
def missingImportEnv : Env (List String × String) :=
  tableEnv "/proj" [("/proj/src/index.js", ["./missing"], "I")]

/-- The bundler of the missing-import project, built with no options. -/
def missingImportBundler : Bundler :=
  Bundler.new missingImportEnv { entry := none, output := none }

/-- A project without any file. -/
def noEntryEnv : Env (List String × String) :=
  tableEnv "/proj" []

/-- The bundler of the empty project, built with no options. -/
def noEntryBundler : Bundler :=
  Bundler.new noEntryEnv { entry := none, output := none }

/-- The kind of a thrown exception, by the library whose call throws it.  The
bundler defines no error kinds of its own and catches nothing. -/
inductive ErrorKind where
  /-- A system error of `fs` (such as `ENOENT`). -/
  | fsError
  /-- A `SyntaxError` of the parser. -/
  | syntaxError
  /-- An error of the transformer. -/
  | transformError
  /-- A `TypeError` for an argument that is not a string. -/
  | typeError
  deriving DecidableEq, Repr

/-- The kind of each exception. -/
def BuildError.kind : BuildError → ErrorKind
  | .readError _ => .fsError
  | .parseError _ => .syntaxError
  | .transformError _ => .transformError
  | .typeError => .typeError
  | .mkdirError _ => .fsError
  | .writeError _ => .fsError

/-- Options that give `output.path` only. -/
def pathOnlyOptions : Options :=
  { entry := none, output := some { path := some "./out", filename := none } }

/-- Options that give both fields of `output`. -/
def fullOptions : Options :=
  { entry := some "./src/index.js", output := some { path := some "./out", filename := some "app.js" } }

/-! ## The loader that `generateCode` emits -/

/-- What the loader can observe when `eval` runs the code of a module: calls of
`require` and assignments to properties of `exports`. -/
inductive Effect where
  /-- The call `require(path)`. -/
  | require (path : String)
  /-- The assignment `exports[name] = value`. -/
  | assign (name : String) (value : String)
  deriving DecidableEq, Repr

/-- The state of a run of the bundle: the `exports` objects created so far (an
object is named by its position) and the calls of `eval` so far, each with the
key of the module and the `exports` object of that call. -/
structure Runtime where
  objects : List (List (String × String))
  evals : List (String × Nat)
  deriving DecidableEq, Repr

/-- The names of the properties of `Object.prototype`, which every object of the
inlined graph inherits. -/
def objectPrototypeNames : List String :=
  ["constructor", "__defineGetter__", "__defineSetter__", "hasOwnProperty",
   "__lookupGetter__", "__lookupSetter__", "isPrototypeOf", "propertyIsEnumerable",
   "toString", "valueOf", "__proto__", "toLocaleString"]

/-- What the read of a property of a `dependencies` object gives. -/
inductive JsVal where
  /-- No own and no inherited property of that name. -/
  | undefined
  /-- The string of an own property. -/
  | str (s : String)
  /-- The value of the property `name` of `Object.prototype`. -/
  | inherited (name : String)
  deriving DecidableEq, Repr

/-- The read `dependencies[path]`. -/
def getProp (o : List (String × String)) (k : String) : JsVal :=
  match objGet o k with
  | some v => .str v
  | none => if objectPrototypeNames.contains k then .inherited k else .undefined

/-- The property key that a value becomes in `graph[module]`: a string is
itself, `undefined` is the text `undefined`, a built-in function is its source
text and `Object.prototype` is `[object Object]`. -/
def propertyKey : JsVal → String
  | .undefined => "undefined"
  | .str s => s
  | .inherited name =>
    if name = "__proto__" then "[object Object]"
    else "function " ++ (if name = "constructor" then "Object" else name) ++
      "() \x7b [native code] \x7d"

/-- The assignment of property `name` of the object at position `id`. -/
def updateObject :
    List (List (String × String)) → Nat → String → String → List (List (String × String))
  | [], _, _, _ => []
  | o :: os, 0, name, value => objSet o name value :: os
  | o :: os, id + 1, name, value => o :: updateObject os id name value

/-- The run of a module's code, with `require` bound to `req` and `exports`
bound to the object at position `exports`.  The result `none` means that the
call depth was used up, `error` that a `TypeError` was thrown. -/
def execCode (req : String → Runtime → Option (Except Unit (Nat × Runtime))) (exports : Nat) :
    List Effect → Runtime → Option (Except Unit Runtime)
  | [], rt => some (.ok rt)
  | .require path :: rest, rt =>
    match req path rt with
    | none => none
    | some (.error _) => some (.error ())
    | some (.ok (_, rt1)) => execCode req exports rest rt1
  | .assign name value :: rest, rt =>
    execCode req exports rest { rt with objects := updateObject rt.objects exports name value }

/-- The function `run(module)` of the emitted program.  The object `graph` is
the inlined literal: the own properties of the built graph, with
`Object.prototype` as prototype.  `sem` gives the effects of a code text under
`eval` and `fuel` bounds the call depth.  For a key that is no own property but
a name of `Object.prototype`, `graph[module]` is a built-in without `code`, and
`eval(undefined)` runs nothing; for any other key that is no own property,
`graph[module]` is `undefined` and reading `code` throws.  The result is the
position of the returned `exports` object and the new state. -/
def run (graph : List (String × ModuleRecord)) (sem : String → List Effect) :
    Nat → JsVal → Runtime → Option (Except Unit (Nat × Runtime))
  | 0, _, _ => none
  | fuel + 1, module, rt =>
    let exports := rt.objects.length
    let rt1 : Runtime := { rt with objects := rt.objects ++ [[]] }
    match objGet graph (propertyKey module) with
    | some record =>
      let rt2 : Runtime := { rt1 with evals := rt1.evals ++ [(propertyKey module, exports)] }
      match execCode
          (fun path r => run graph sem fuel (getProp record.dependencies path) r)
          exports (sem record.code) rt2 with
      | none => none
      | some (.error _) => some (.error ())
      | some (.ok rt3) => some (.ok (exports, rt3))
    | none =>
      if objectPrototypeNames.contains (propertyKey module) then
        some (.ok (exports,
          { rt1 with evals := rt1.evals ++ [(propertyKey module, exports)] }))
      else some (.error ())

/-- The key of the module that an effect requires from the module with the
given record, if the effect is a `require` call. -/
def requireTarget (record : ModuleRecord) : Effect → Option String
  | .require path => some (propertyKey (getProp record.dependencies path))
  | .assign _ _ => none

/-- The number of `require` calls in the code of module `x` that resolve,
through the `dependencies` of `x`, to the module `d`. -/
def reqCount (graph : List (String × ModuleRecord)) (sem : String → List Effect)
    (x d : String) : Nat :=
  match objGet graph x with
  | some record => ((sem record.code).filter (fun e => requireTarget record e == some d)).length
  | none => 0

/-- Every chain of `require` calls that starts in module `m` has fewer than `n`
modules and never reaches a key for which `graph[module]` is `undefined`. -/
def requireBounded (graph : List (String × ModuleRecord)) (sem : String → List Effect) :
    Nat → String → Bool
  | 0, _ => false
  | n + 1, m =>
    match objGet graph m with
    | some record =>
      (sem record.code).all (fun e =>
        match requireTarget record e with
        | some target => requireBounded graph sem n target
        | none => true)
    | none => objectPrototypeNames.contains m

/-- Between the states `rt` and `rt1` the calls of `eval` in `log` were made,
each with a new `exports` object: the call at position `i` of `log` has the
object at position `i` after those of `rt`. -/
def Extends (rt rt1 : Runtime) (log : List (String × Nat)) : Prop :=
  rt1.evals = rt.evals ++ log ∧
  rt1.objects.length = rt.objects.length + log.length ∧
  log.map Prod.snd = List.range' rt.objects.length log.length

/-- The effects of the code texts of the diamond project. -/
def diamondSem (code : String) : List Effect :=
  if code = "A" then [.require "./b.js", .require "./c.js", .assign "a" "1"]
  else if code = "B" then [.require "./lib/d.js", .assign "b" "1"]
  else if code = "C" then [.require "./lib/d.js", .assign "c" "1"]
  else if code = "D" then [.assign "default" "2"]
  else []

/-! ## Reachability and bounded import depth -/

/-- The module `m` is reachable from `entry`: it is the entry, or a value of
the `dependencies` that `parseFile` produces for a reachable module. -/
inductive Reachable {Ast : Type} (env : Env Ast) (b : Bundler) (entry : String) :
    String → Prop
  | entry : Reachable env b entry entry
  | dep (m v : String) (info : FileInfo) :
      Reachable env b entry m → parseFile env b m = .ok info →
      v ∈ objValues info.dependencies → Reachable env b entry v

/-- Every import chain that starts at `m` has fewer than `d` modules, and every
module on such a chain is read, parsed and transformed without an exception.
With finitely many imports per file, this holds for some `d` exactly when
the import relation reachable from `m` is finite and acyclic and all its files
are readable and parseable. -/
def importsBounded {Ast : Type} (env : Env Ast) (b : Bundler) : Nat → String → Bool
  | 0, _ => false
  | d + 1, m =>
    match parseFile env b m with
    | .ok info => (objValues info.dependencies).all (importsBounded env b d)
    | .error _ => false

/-- Module `m` imports module `v`: `parseFile(m)` returns and `v` is a value of
its `dependencies`. -/
def Imports {Ast : Type} (env : Env Ast) (b : Bundler) (m v : String) : Prop :=
  ∃ info, parseFile env b m = .ok info ∧ v ∈ objValues info.dependencies

/-- The modules met within `d` imports below `m`, `m` first. -/
def modulesWithin {Ast : Type} (env : Env Ast) (b : Bundler) : Nat → String → List String
  | 0, m => [m]
  | d + 1, m =>
    match parseFile env b m with
    | .ok info => m :: (objValues info.dependencies).flatMap (modulesWithin env b d)
    | .error _ => [m]

/-- The number of nodes of the import tree unfolded below `m`, to depth `d`. -/
def treeSize {Ast : Type} (env : Env Ast) (b : Bundler) : Nat → String → Nat
  | 0, _ => 0
  | d + 1, m =>
    match parseFile env b m with
    | .ok info => 1 + ((objValues info.dependencies).map (treeSize env b d)).sum
    | .error _ => 0

/-- Every module of `S` is parsed without an exception and imports only
modules of `S`. -/
def closedUnder {Ast : Type} (env : Env Ast) (b : Bundler) (S : List String) : Bool :=
  S.all (fun m =>
    match parseFile env b m with
    | .ok info => (objValues info.dependencies).all (fun v => S.contains v)
    | .error _ => false)

/-- The facts that hold of the task list throughout the loop. -/
def LoopInv {Ast : Type} (env : Env Ast) (b : Bundler) (entry : String)
    (i : Nat) (tasks : List FileInfo) (calls : List String) : Prop :=
  calls = tasks.map (fun t => t.path) ∧
  (∀ t ∈ tasks, parseFile env b t.path = .ok t) ∧
  (∀ t ∈ tasks, Reachable env b entry t.path) ∧
  entry ∈ tasks.map (fun t => t.path) ∧
  (∀ t ∈ tasks.take i, ∀ v ∈ objValues t.dependencies, v ∈ tasks.map (fun t => t.path))

/-! ## Normal forms of paths -/

namespace PosixPath

/-- A segment of a normalized path: non-empty, without a slash, neither `.` nor `..`. -/
def CleanSeg (s : List Char) : Prop :=
  s ≠ [] ∧ '/' ∉ s ∧ s ≠ ['.'] ∧ s ≠ ['.', '.']

/-- A list of segments of a normalized path. -/
def Clean (segs : List (List Char)) : Prop := ∀ s ∈ segs, CleanSeg s

/-- A normalized absolute path: a slash followed by clean segments joined by slashes. -/
def AbsNorm (p : List Char) : Prop := ∃ segs, Clean segs ∧ p = '/' :: joinSlash segs

/-- The segments that `normalizeString(p, false)` keeps. -/
def segsOf (p : List Char) : List (List Char) :=
  ((splitSlash p).foldl (normStep false) []).reverse

end PosixPath

/-! ## Dictionaries: basic facts -/

theorem mem_keys_setOwn {α : Type} (o : List (String × α)) (k : String) (v : α)
    (k1 : String) : k1 ∈ (setOwn o k v).map Prod.fst ↔ k1 = k ∨ k1 ∈ o.map Prod.fst := by
  induction o with
  | nil => simp [setOwn]
  | cons hd tl ih =>
    obtain ⟨k0, v0⟩ := hd
    by_cases h : k0 = k
    · subst h
      simp [setOwn]
    · simp only [setOwn, h, if_false]
      simp only [List.map_cons, List.mem_cons] at ih ⊢
      rw [ih]
      tauto

theorem nodup_keys_setOwn {α : Type} (o : List (String × α)) (k : String) (v : α)
    (h : (o.map Prod.fst).Nodup) : ((setOwn o k v).map Prod.fst).Nodup := by
  induction o with
  | nil => simp [setOwn]
  | cons hd tl ih =>
    obtain ⟨k0, v0⟩ := hd
    have h1 : k0 ∉ tl.map Prod.fst ∧ (tl.map Prod.fst).Nodup := by
      simpa using h
    by_cases hk : k0 = k
    · subst hk
      simpa [setOwn] using h
    · simp only [setOwn, hk, if_false]
      have h2 : k0 ∉ (setOwn tl k v).map Prod.fst := by
        rw [mem_keys_setOwn]
        intro hc
        rcases hc with hc | hc
        · exact hk hc
        · exact h1.1 hc
      have h3 := ih h1.2
      simp only [List.map_cons, List.nodup_cons]
      exact ⟨h2, h3⟩

theorem objGet_setOwn {α : Type} (o : List (String × α)) (k : String) (v : α)
    (k1 : String) : objGet (setOwn o k v) k1 = if k = k1 then some v else objGet o k1 := by
  induction o with
  | nil => simp [setOwn, objGet]
  | cons hd tl ih =>
    obtain ⟨k0, v0⟩ := hd
    by_cases h : k0 = k
    · subst h
      by_cases h1 : k0 = k1 <;> simp [setOwn, objGet, h1]
    · simp only [setOwn, h, if_false, objGet]
      rw [ih]
      by_cases h1 : k0 = k1
      · subst h1
        have h2 : ¬ k = k0 := fun hc => h hc.symm
        simp [h2]
      · simp [h1]

theorem mem_setOwn {α : Type} (o : List (String × α)) (k : String) (v : α)
    (kv : String × α) (h : kv ∈ setOwn o k v) : kv = (k, v) ∨ kv ∈ o := by
  induction o with
  | nil =>
    simp only [setOwn, List.mem_singleton] at h
    exact Or.inl h
  | cons hd tl ih =>
    obtain ⟨k0, v0⟩ := hd
    by_cases hk : k0 = k
    · simp only [setOwn, hk, if_true, List.mem_cons] at h
      rcases h with h | h
      · exact Or.inl h
      · exact Or.inr (List.mem_cons_of_mem _ h)
    · simp only [setOwn, hk, if_false, List.mem_cons] at h
      rcases h with h | h
      · exact Or.inr (by simp [h])
      · rcases ih h with h1 | h1
        · exact Or.inl h1
        · exact Or.inr (List.mem_cons_of_mem _ h1)

theorem mem_objSet (o : List (String × String)) (k v : String)
    (kv : String × String) (h : kv ∈ objSet o k v) : kv = (k, v) ∨ kv ∈ o := by
  unfold objSet at h
  split at h
  · exact Or.inr h
  · exact mem_setOwn o k v kv h

theorem ownEntries_perm {α : Type} (o : List (String × α)) : (ownEntries o).Perm o := by
  unfold ownEntries
  exact ((List.perm_insertionSort _ _).append_right _).trans (List.filter_append_perm _ o)

theorem mem_objKeys {α : Type} (o : List (String × α)) (k : String) :
    k ∈ objKeys o ↔ k ∈ o.map Prod.fst :=
  ((ownEntries_perm o).map Prod.fst).mem_iff

theorem nodup_objKeys {α : Type} (o : List (String × α)) (h : (o.map Prod.fst).Nodup) :
    (objKeys o).Nodup :=
  ((ownEntries_perm o).map Prod.fst).nodup_iff.mpr h

theorem mem_objValues {α : Type} (o : List (String × α)) (v : α) :
    v ∈ objValues o ↔ ∃ k, (k, v) ∈ o := by
  rw [objValues, ((ownEntries_perm o).map Prod.snd).mem_iff]
  simp

theorem objGet_isSome_iff {α : Type} (o : List (String × α)) (k : String) :
    (∃ v, objGet o k = some v) ↔ k ∈ objKeys o := by
  rw [mem_objKeys]
  induction o with
  | nil => simp [objGet]
  | cons hd tl ih =>
    obtain ⟨k0, v0⟩ := hd
    by_cases h : k0 = k
    · subst h
      simp [objGet]
    · simp only [objGet, h, if_false]
      rw [ih]
      simp only [List.map_cons, List.mem_cons]
      constructor
      · intro hm
        exact Or.inr hm
      · intro hm
        rcases hm with hm | hm
        · exact absurd hm.symm h
        · exact hm

theorem objGet_mem {α : Type} (o : List (String × α)) (k : String) (v : α)
    (h : objGet o k = some v) : (k, v) ∈ o := by
  induction o with
  | nil => simp [objGet] at h
  | cons hd tl ih =>
    obtain ⟨k0, v0⟩ := hd
    by_cases hk : k0 = k
    · subst hk
      simp [objGet] at h
      simp [h]
    · simp only [objGet, hk, if_false] at h
      exact List.mem_cons_of_mem _ (ih h)

/-! ## The graph assembled from the task list -/

theorem graphOfTasks_eq (tasks : List FileInfo) :
    graphOfTasks tasks = tasks.foldl graphStep { props := [], proto := none } := rfl

theorem mem_keys_foldl_graphStep (tasks : List FileInfo) (g : Graph) (k : String) :
    k ∈ (tasks.foldl graphStep g).props.map Prod.fst ↔
      k ∈ g.props.map Prod.fst ∨ (k ∈ tasks.map (fun t => t.path) ∧ k ≠ "__proto__") := by
  induction tasks generalizing g with
  | nil => simp
  | cons t ts ih =>
    simp only [List.foldl_cons, List.map_cons, List.mem_cons]
    rw [ih, graphStep, graphSet]
    by_cases hp : t.path = "__proto__"
    · simp only [hp, if_true]
      constructor
      · rintro (h | ⟨h1, h2⟩)
        · exact Or.inl h
        · exact Or.inr ⟨Or.inr h1, h2⟩
      · rintro (h | ⟨h1 | h1, h2⟩)
        · exact Or.inl h
        · exact absurd h1 h2
        · exact Or.inr ⟨h1, h2⟩
    · simp only [hp, if_false, mem_keys_setOwn]
      constructor
      · rintro ((h | h) | ⟨h1, h2⟩)
        · exact Or.inr ⟨Or.inl h, by rw [h]; exact hp⟩
        · exact Or.inl h
        · exact Or.inr ⟨Or.inr h1, h2⟩
      · rintro (h | ⟨h1 | h1, h2⟩)
        · exact Or.inl (Or.inr h)
        · exact Or.inl (Or.inl h1)
        · exact Or.inr ⟨h1, h2⟩

theorem nodup_keys_foldl_graphStep (tasks : List FileInfo) (g : Graph)
    (h : (g.props.map Prod.fst).Nodup) :
    ((tasks.foldl graphStep g).props.map Prod.fst).Nodup := by
  induction tasks generalizing g with
  | nil => simpa using h
  | cons t ts ih =>
    simp only [List.foldl_cons]
    apply ih
    rw [graphStep, graphSet]
    split
    · exact h
    · exact nodup_keys_setOwn _ _ _ h

theorem objGet_foldl_graphStep (tasks : List FileInfo) (g : Graph) (k : String)
    (r : ModuleRecord) (h : objGet (tasks.foldl graphStep g).props k = some r) :
    objGet g.props k = some r ∨
      ∃ t ∈ tasks, t.path = k ∧ r = { dependencies := t.dependencies, code := t.code } := by
  induction tasks generalizing g with
  | nil => exact Or.inl (by simpa using h)
  | cons t ts ih =>
    simp only [List.foldl_cons] at h
    rcases ih _ h with h1 | ⟨t1, ht1, hp, hr⟩
    · rw [graphStep, graphSet] at h1
      split at h1
      · exact Or.inl h1
      · rw [objGet_setOwn] at h1
        by_cases hk : t.path = k
        · simp only [hk, if_true, Option.some.injEq] at h1
          exact Or.inr ⟨t, List.mem_cons_self _ _, hk, h1.symm⟩
        · simp only [hk, if_false] at h1
          exact Or.inl h1
    · exact Or.inr ⟨t1, List.mem_cons_of_mem _ ht1, hp, hr⟩

theorem mem_keys_graphOfTasks (tasks : List FileInfo) (k : String) :
    k ∈ objKeys (graphOfTasks tasks).props ↔
      k ∈ tasks.map (fun t => t.path) ∧ k ≠ "__proto__" := by
  rw [mem_objKeys, graphOfTasks_eq, mem_keys_foldl_graphStep]
  simp

theorem nodup_keys_graphOfTasks (tasks : List FileInfo) :
    (objKeys (graphOfTasks tasks).props).Nodup := by
  apply nodup_objKeys
  rw [graphOfTasks_eq]
  exact nodup_keys_foldl_graphStep _ _ (by simp)

theorem objGet_graphOfTasks (tasks : List FileInfo) (k : String) (r : ModuleRecord)
    (h : objGet (graphOfTasks tasks).props k = some r) :
    ∃ t ∈ tasks, t.path = k ∧ r = { dependencies := t.dependencies, code := t.code } := by
  rw [graphOfTasks_eq] at h
  rcases objGet_foldl_graphStep _ _ _ _ h with h1 | h1
  · simp [objGet] at h1
  · exact h1

/-! ## `parseFile` and the inner `forEach` -/

theorem parseFile_path {Ast : Type} (env : Env Ast) (b : Bundler) (p : String)
    (info : FileInfo) (h : parseFile env b p = .ok info) : info.path = p := by
  unfold parseFile at h
  simp only at h
  split at h
  · cases h
  · split at h
    · cases h
    · split at h
      · cases h
      · cases h
        rfl

theorem parseDeps_ok {Ast : Type} (env : Env Ast) (b : Bundler) (deps : List String)
    (tasks : List FileInfo) (calls calls1 : List String) (tasks1 : List FileInfo)
    (h : parseDeps env b deps tasks calls = (calls1, .ok tasks1)) :
    calls1 = calls ++ deps ∧
      ∃ infos, tasks1 = tasks ++ infos ∧ infos.map (fun t => t.path) = deps ∧
        ∀ t ∈ infos, parseFile env b t.path = .ok t := by
  induction deps generalizing tasks calls with
  | nil =>
    simp only [parseDeps, Prod.mk.injEq, Except.ok.injEq] at h
    exact ⟨by simp [h.1], [], by simp [h.2], rfl, by simp⟩
  | cons dep deps ih =>
    cases hp : parseFile env b dep with
    | error e => simp [parseDeps, hp] at h
    | ok depInfo =>
      simp only [parseDeps, hp] at h
      obtain ⟨hc, infos, ht, hm, hall⟩ := ih _ _ h
      have hpath := parseFile_path env b dep depInfo hp
      refine ⟨by simp [hc], depInfo :: infos, by simp [ht], by simp [hm, hpath], ?_⟩
      intro t ht1
      rcases List.mem_cons.mp ht1 with rfl | ht1
      · rw [hpath]
        exact hp
      · exact hall t ht1

theorem parseDeps_total {Ast : Type} (env : Env Ast) (b : Bundler) (deps : List String)
    (tasks : List FileInfo) (calls : List String)
    (h : ∀ d ∈ deps, ∃ info, parseFile env b d = .ok info) :
    ∃ tasks1, parseDeps env b deps tasks calls = (calls ++ deps, .ok tasks1) := by
  induction deps generalizing tasks calls with
  | nil => exact ⟨tasks, by simp [parseDeps]⟩
  | cons dep deps ih =>
    obtain ⟨info, hp⟩ := h dep (List.mem_cons_self _ _)
    obtain ⟨tasks1, h1⟩ := ih (tasks ++ [info]) (calls ++ [dep])
      (fun d hd => h d (List.mem_cons_of_mem _ hd))
    exact ⟨tasks1, by simp [parseDeps, hp, h1]⟩

/-! ## The loop of `buildDependencyGraph` -/

theorem buildLoop_invariant {Ast : Type} (env : Env Ast) (b : Bundler)
    (Inv : Nat → List FileInfo → List String → Prop)
    (hstep : ∀ i tasks calls fileInfo infos, Inv i tasks calls →
      tasks.get? i = some fileInfo →
      infos.map (fun t => t.path) = objValues fileInfo.dependencies →
      (∀ t ∈ infos, parseFile env b t.path = .ok t) →
      Inv (i + 1) (tasks ++ infos) (calls ++ objValues fileInfo.dependencies))
    (fuel i : Nat) (tasks : List FileInfo) (calls calls1 : List String)
    (final : List FileInfo)
    (h : buildLoop env b fuel i tasks calls = some (calls1, .ok final))
    (hinv : Inv i tasks calls) :
    ∃ j, final.length ≤ j ∧ Inv j final calls1 := by
  induction fuel generalizing i tasks calls with
  | zero => simp [buildLoop] at h
  | succ fuel ih =>
    cases hg : tasks.get? i with
    | none =>
      simp only [buildLoop, hg, Option.some.injEq, Prod.mk.injEq, Except.ok.injEq] at h
      obtain ⟨hc, ht⟩ := h
      subst hc
      subst ht
      exact ⟨i, List.get?_eq_none.mp hg, hinv⟩
    | some fileInfo =>
      simp only [buildLoop, hg] at h
      cases hp : parseDeps env b (objValues fileInfo.dependencies) tasks calls with
      | mk c1 r =>
        cases r with
        | error e => simp [hp] at h
        | ok tasks1 =>
          simp only [hp] at h
          obtain ⟨hc, infos, ht, hm, hall⟩ := parseDeps_ok env b _ _ _ _ _ hp
          subst hc
          subst ht
          exact ih _ _ _ h (hstep i tasks calls fileInfo infos hinv hg hm hall)

theorem loopInv_step {Ast : Type} (env : Env Ast) (b : Bundler) (entry : String)
    (i : Nat) (tasks : List FileInfo) (calls : List String) (fileInfo : FileInfo)
    (infos : List FileInfo) (hinv : LoopInv env b entry i tasks calls)
    (hg : tasks.get? i = some fileInfo)
    (hm : infos.map (fun t => t.path) = objValues fileInfo.dependencies)
    (hall : ∀ t ∈ infos, parseFile env b t.path = .ok t) :
    LoopInv env b entry (i + 1) (tasks ++ infos)
      (calls ++ objValues fileInfo.dependencies) := by
  obtain ⟨hc, hok, hreach, hentry, hclosed⟩ := hinv
  have hmem : fileInfo ∈ tasks := List.get?_mem hg
  have hlt : i < tasks.length := by
    rcases Nat.lt_or_ge i tasks.length with h | h
    · exact h
    · rw [List.get?_eq_none.mpr h] at hg
      cases hg
  refine ⟨by simp [hc, hm], ?_, ?_, ?_, ?_⟩
  · intro t ht
    rcases List.mem_append.mp ht with ht | ht
    · exact hok t ht
    · exact hall t ht
  · intro t ht
    rcases List.mem_append.mp ht with ht | ht
    · exact hreach t ht
    · refine Reachable.dep fileInfo.path t.path fileInfo (hreach _ hmem) (hok _ hmem) ?_
      rw [← hm]
      exact List.mem_map_of_mem _ ht
  · rw [List.map_append]
    exact List.mem_append_left _ hentry
  · intro t ht v hv
    rw [List.map_append]
    rw [List.take_append_of_le_length (Nat.succ_le_of_lt hlt)] at ht
    rw [List.take_succ, ← List.get?_eq_getElem?, hg] at ht
    rcases List.mem_append.mp ht with ht | ht
    · exact List.mem_append_left _ (hclosed t ht v hv)
    · simp only [Option.toList, List.mem_singleton] at ht
      subst ht
      rw [hm]
      exact List.mem_append_right _ hv

theorem buildLoop_final {Ast : Type} (env : Env Ast) (b : Bundler) (entry : String)
    (fuel : Nat) (rootFileInfo : FileInfo) (calls1 : List String) (final : List FileInfo)
    (hroot : parseFile env b entry = .ok rootFileInfo)
    (h : buildLoop env b fuel 0 [rootFileInfo] [entry] = some (calls1, .ok final)) :
    LoopInv env b entry final.length final calls1 := by
  have hpath := parseFile_path env b entry rootFileInfo hroot
  have h0 : LoopInv env b entry 0 [rootFileInfo] [entry] := by
    refine ⟨by simp [hpath], ?_, ?_, by simp [hpath], by simp⟩
    · intro t ht
      rw [List.mem_singleton] at ht
      subst ht
      rw [hpath]
      exact hroot
    · intro t ht
      rw [List.mem_singleton] at ht
      subst ht
      rw [hpath]
      exact Reachable.entry
  obtain ⟨j, hj, hc, hok, hreach, hentry, hclosed⟩ :=
    buildLoop_invariant env b (LoopInv env b entry) (loopInv_step env b entry)
      fuel 0 _ _ _ _ h h0
  refine ⟨hc, hok, hreach, hentry, ?_⟩
  rw [List.take_of_length_le hj] at hclosed
  rw [List.take_length]
  exact hclosed

theorem buildDependencyGraph_ok {Ast : Type} (env : Env Ast) (b : Bundler) (fuel : Nat)
    (entry : String) (calls : List String) (graph : Graph)
    (h : buildDependencyGraph env b fuel entry = some (calls, .ok graph)) :
    ∃ final, graph = graphOfTasks final ∧ LoopInv env b entry final.length final calls := by
  unfold buildDependencyGraph at h
  cases hroot : parseFile env b entry with
  | error e => simp [hroot] at h
  | ok rootFileInfo =>
    simp only [hroot] at h
    cases hl : buildLoop env b fuel 0 [rootFileInfo] [entry] with
    | none => simp [hl] at h
    | some res =>
      obtain ⟨c1, r⟩ := res
      cases r with
      | error e => simp [hl] at h
      | ok final =>
        simp only [hl, Option.some.injEq, Prod.mk.injEq, Except.ok.injEq] at h
        obtain ⟨hc, hg⟩ := h
        subst hc
        exact ⟨final, hg.symm, buildLoop_final env b entry fuel rootFileInfo _ _ hroot hl⟩

/-! ## Bounded import depth: facts -/

theorem importsBounded_parse {Ast : Type} (env : Env Ast) (b : Bundler) (d : Nat)
    (m : String) (h : importsBounded env b d m = true) :
    ∃ d1 info, d = d1 + 1 ∧ parseFile env b m = .ok info ∧
      ∀ v ∈ objValues info.dependencies, importsBounded env b d1 v = true := by
  cases d with
  | zero => simp [importsBounded] at h
  | succ d1 =>
    cases hp : parseFile env b m with
    | error e => simp [importsBounded, hp] at h
    | ok info =>
      simp only [importsBounded, hp, List.all_eq_true] at h
      exact ⟨d1, info, rfl, rfl, h⟩

theorem importsBounded_succ {Ast : Type} (env : Env Ast) (b : Bundler) (d : Nat) :
    ∀ m, importsBounded env b d m = true →
      importsBounded env b (d + 1) m = true ∧ treeSize env b (d + 1) m = treeSize env b d m := by
  induction d with
  | zero =>
    intro m h
    simp [importsBounded] at h
  | succ d ih =>
    intro m h
    obtain ⟨d1, info, hd, hp, hall⟩ := importsBounded_parse env b _ m h
    have hd1 : d = d1 := by omega
    subst hd1
    constructor
    · rw [importsBounded]
      simp only [hp, List.all_eq_true]
      intro v hv
      exact (ih v (hall v hv)).1
    · rw [treeSize, treeSize]
      simp only [hp]
      congr 2
      apply List.map_congr_left
      intro v hv
      exact (ih v (hall v hv)).2

theorem treeSize_pos {Ast : Type} (env : Env Ast) (b : Bundler) (d : Nat) (m : String)
    (h : importsBounded env b d m = true) : 0 < treeSize env b d m := by
  obtain ⟨d1, info, hd, hp, _⟩ := importsBounded_parse env b _ m h
  subst hd
  rw [treeSize]
  simp only [hp]
  omega

theorem buildLoop_done {Ast : Type} (env : Env Ast) (b : Bundler) (fuel i : Nat)
    (tasks : List FileInfo) (calls : List String) (hg : tasks.get? i = none) :
    buildLoop env b (fuel + 1) i tasks calls = some (calls, .ok tasks) := by
  rw [buildLoop]
  simp only [hg]

theorem buildLoop_step {Ast : Type} (env : Env Ast) (b : Bundler) (fuel i : Nat)
    (tasks : List FileInfo) (calls : List String) (fileInfo : FileInfo)
    (calls1 : List String) (tasks1 : List FileInfo) (hg : tasks.get? i = some fileInfo)
    (hp : parseDeps env b (objValues fileInfo.dependencies) tasks calls = (calls1, .ok tasks1)) :
    buildLoop env b (fuel + 1) i tasks calls = buildLoop env b fuel (i + 1) tasks1 calls1 := by
  rw [buildLoop]
  simp only [hg, hp]

theorem buildLoop_terminates {Ast : Type} (env : Env Ast) (b : Bundler) (D : Nat) (n : Nat) :
    ∀ (i : Nat) (tasks : List FileInfo) (calls : List String),
      (∀ t ∈ tasks, parseFile env b t.path = .ok t) →
      (∀ t ∈ tasks.drop i, importsBounded env b D t.path = true) →
      ((tasks.drop i).map (fun t => treeSize env b D t.path)).sum ≤ n →
      ∃ calls1 final, buildLoop env b (n + 1) i tasks calls = some (calls1, .ok final) := by
  induction n with
  | zero =>
    intro i tasks calls _ hb hsum
    cases hg : tasks.get? i with
    | none => exact ⟨calls, tasks, buildLoop_done env b _ i tasks calls hg⟩
    | some t =>
      exfalso
      have hlt : i < tasks.length := by
        rcases Nat.lt_or_ge i tasks.length with h | h
        · exact h
        · rw [List.get?_eq_none.mpr h] at hg
          cases hg
      have hdrop : tasks.drop i = tasks[i] :: tasks.drop (i + 1) := List.drop_eq_getElem_cons hlt
      have hpos := treeSize_pos env b D tasks[i].path (hb _ (by rw [hdrop]; exact List.mem_cons_self _ _))
      rw [hdrop] at hsum
      simp only [List.map_cons, List.sum_cons] at hsum
      omega
  | succ n ih =>
    intro i tasks calls hok hb hsum
    cases hg : tasks.get? i with
    | none => exact ⟨calls, tasks, buildLoop_done env b _ i tasks calls hg⟩
    | some t =>
      have hlt : i < tasks.length := by
        rcases Nat.lt_or_ge i tasks.length with h | h
        · exact h
        · rw [List.get?_eq_none.mpr h] at hg
          cases hg
      have hti : tasks[i] = t := by
        have h1 : tasks.get? i = some tasks[i] := by
          rw [List.get?_eq_getElem?]
          exact List.getElem?_eq_getElem hlt
        rw [h1] at hg
        exact Option.some.inj hg
      have hdrop : tasks.drop i = t :: tasks.drop (i + 1) := by
        rw [← hti]
        exact List.drop_eq_getElem_cons hlt
      have htmem : t ∈ tasks := List.get?_mem hg
      have hbt : importsBounded env b D t.path = true :=
        hb t (by rw [hdrop]; exact List.mem_cons_self _ _)
      obtain ⟨D1, info, hD, hp, hchildren⟩ := importsBounded_parse env b D t.path hbt
      have hinfo : info = t := by
        have := hok t htmem
        rw [hp] at this
        exact Except.ok.inj this
      subst hinfo
      obtain ⟨tasks1, hpd⟩ := parseDeps_total env b (objValues info.dependencies) tasks calls
        (fun d hd => by
          obtain ⟨_, i1, _, hp1, _⟩ := importsBounded_parse env b D1 d (hchildren d hd)
          exact ⟨i1, hp1⟩)
      obtain ⟨_, infos, ht1, hm, hall⟩ := parseDeps_ok env b _ _ _ _ _ hpd
      subst ht1
      have hnext : ∃ calls1 final,
          buildLoop env b (n + 1) (i + 1) (tasks ++ infos)
            (calls ++ objValues info.dependencies) = some (calls1, .ok final) := by
        have hdrop1 : (tasks ++ infos).drop (i + 1) = tasks.drop (i + 1) ++ infos :=
          List.drop_append_of_le_length (Nat.succ_le_of_lt hlt)
        apply ih
        · intro t1 ht1
          rcases List.mem_append.mp ht1 with ht1 | ht1
          · exact hok t1 ht1
          · exact hall t1 ht1
        · intro t1 ht1
          rw [hdrop1] at ht1
          rcases List.mem_append.mp ht1 with ht1 | ht1
          · exact hb t1 (by rw [hdrop]; exact List.mem_cons_of_mem _ ht1)
          · subst hD
            have hv : t1.path ∈ objValues info.dependencies := by
              rw [← hm]
              exact List.mem_map_of_mem _ ht1
            exact (importsBounded_succ env b D1 _ (hchildren _ hv)).1
        · rw [hdrop1]
          rw [hdrop] at hsum
          simp only [List.map_cons, List.sum_cons, List.map_append, List.sum_append] at hsum ⊢
          have hsize : treeSize env b D info.path =
              1 + (infos.map (fun t => treeSize env b D t.path)).sum := by
            subst hD
            rw [treeSize]
            simp only [hp]
            congr 1
            rw [← hm, List.map_map]
            congr 1
            apply List.map_congr_left
            intro t1 ht1
            have hv : t1.path ∈ objValues info.dependencies := by
              rw [← hm]
              exact List.mem_map_of_mem _ ht1
            exact ((importsBounded_succ env b D1 _ (hchildren _ hv)).2).symm
          omega
      obtain ⟨calls1, final, hfin⟩ := hnext
      exact ⟨calls1, final, by rw [buildLoop_step env b _ i tasks calls info _ _ hg hpd]; exact hfin⟩

theorem buildLoop_mono {Ast : Type} (env : Env Ast) (b : Bundler) (fuel : Nat) :
    ∀ (i : Nat) (tasks : List FileInfo) (calls : List String)
      (r : List String × Except BuildError (List FileInfo)),
      buildLoop env b fuel i tasks calls = some r →
      ∀ fuel1, fuel ≤ fuel1 → buildLoop env b fuel1 i tasks calls = some r := by
  induction fuel with
  | zero =>
    intro i tasks calls r h
    simp [buildLoop] at h
  | succ fuel ih =>
    intro i tasks calls r h fuel1 hle
    obtain ⟨n, hn⟩ : ∃ n, fuel1 = n + 1 := ⟨fuel1 - 1, by omega⟩
    subst hn
    rw [buildLoop] at h ⊢
    cases hg : tasks.get? i with
    | none =>
      simp only [hg] at h ⊢
      exact h
    | some fileInfo =>
      simp only [hg] at h ⊢
      cases hp : parseDeps env b (objValues fileInfo.dependencies) tasks calls with
      | mk c1 res =>
        cases res with
        | error e =>
          simp only [hp] at h ⊢
          exact h
        | ok tasks1 =>
          simp only [hp] at h ⊢
          exact ih _ _ _ _ h n (by omega)

theorem buildDependencyGraph_mono {Ast : Type} (env : Env Ast) (b : Bundler) (fuel : Nat)
    (entry : String) (r : List String × Except BuildError Graph)
    (h : buildDependencyGraph env b fuel entry = some r) (fuel1 : Nat) (hle : fuel ≤ fuel1) :
    buildDependencyGraph env b fuel1 entry = some r := by
  unfold buildDependencyGraph at h ⊢
  cases hroot : parseFile env b entry with
  | error e =>
    simp only [hroot] at h ⊢
    exact h
  | ok rootInfo =>
    simp only [hroot] at h ⊢
    cases hl : buildLoop env b fuel 0 [rootInfo] [entry] with
    | none => simp [hl] at h
    | some res =>
      rw [buildLoop_mono env b fuel 0 _ _ res hl fuel1 hle]
      rw [hl] at h
      exact h

/-! ## Claims about the dependency graph -/

theorem graph_closed_except_proto {Ast : Type} (env : Env Ast) (b : Bundler) (fuel : Nat)
    (entry : String) (calls : List String) (graph : Graph)
    (h : buildDependencyGraph env b fuel entry = some (calls, .ok graph)) :
    ∀ m r, objGet graph.props m = some r →
      ∀ v ∈ objValues r.dependencies, v ≠ "__proto__" → v ∈ objKeys graph.props := by
  obtain ⟨final, hg, _, _, _, _, hclosed⟩ := buildDependencyGraph_ok env b fuel entry calls graph h
  subst hg
  intro m r hr v hv hne
  obtain ⟨t, ht, _, hrec⟩ := objGet_graphOfTasks final m r hr
  subst hrec
  rw [mem_keys_graphOfTasks]
  rw [List.take_length] at hclosed
  exact ⟨hclosed t ht v hv, hne⟩

theorem protoEnv_build (fuel : Nat) (h : 3 ≤ fuel) :
    buildDependencyGraph protoEnv protoBundler fuel "a.js" =
      some (["a.js", "__proto__"], .ok protoGraph) :=
  buildDependencyGraph_mono protoEnv protoBundler 3 "a.js" _ (by decide) fuel h

/-- C1 (closure) fails on the code: in the project where `a.js` has the line
`import './__proto__'` and a file named `__proto__` lies in the project root,
`buildDependencyGraph("a.js")` returns a graph in which `__proto__` is a value
of the `dependencies` of `a.js` and is not a key: the assignment
`graph["__proto__"] = record` makes no own property. -/
theorem proto_import_is_not_a_key :
    (∀ fuel, 3 ≤ fuel →
      buildDependencyGraph protoEnv protoBundler fuel "a.js" =
        some (["a.js", "__proto__"], .ok protoGraph)) ∧
    (∃ r, objGet protoGraph.props "a.js" = some r ∧ "__proto__" ∈ objValues r.dependencies) ∧
    "__proto__" ∉ objKeys protoGraph.props :=
  ⟨protoEnv_build,
    ⟨{ dependencies := [("./__proto__", "__proto__")], code := "A" }, by decide, by decide⟩,
    by decide⟩

theorem exact_reachability_bounded {Ast : Type} (env : Env Ast) (b : Bundler) (entry : String)
    (d : Nat) (h : importsBounded env b d entry = true) :
    ∀ fuel, treeSize env b d entry < fuel →
      ∃ calls graph, buildDependencyGraph env b fuel entry = some (calls, .ok graph) ∧
        (∀ k, k ∈ objKeys graph.props ↔ (Reachable env b entry k ∧ k ≠ "__proto__")) ∧
        (objKeys graph.props).Nodup ∧
        ∀ k ∈ objKeys graph.props, ∃ info, parseFile env b k = .ok info ∧
          objGet graph.props k =
            some { dependencies := info.dependencies, code := info.code } := by
  intro fuel hfuel
  obtain ⟨d1, rootInfo, _, hroot, _⟩ := importsBounded_parse env b d entry h
  have hpath := parseFile_path env b entry rootInfo hroot
  obtain ⟨n, hn⟩ : ∃ n, fuel = n + 1 := ⟨fuel - 1, by omega⟩
  subst hn
  obtain ⟨calls, final, hloop⟩ := buildLoop_terminates env b d n 0 [rootInfo] [entry]
    (by
      intro t ht
      rw [List.mem_singleton] at ht
      subst ht
      rw [hpath]
      exact hroot)
    (by
      intro t ht
      simp only [List.drop_zero, List.mem_singleton] at ht
      subst ht
      rw [hpath]
      exact h)
    (by
      simp only [List.drop_zero, List.map_cons, List.map_nil, List.sum_cons, List.sum_nil,
        hpath]
      omega)
  have hbuild : buildDependencyGraph env b (n + 1) entry =
      some (calls, .ok (graphOfTasks final)) := by
    unfold buildDependencyGraph
    simp only [hroot, hloop]
  obtain ⟨_, hok, hreach, hentry, hclosed⟩ :=
    buildLoop_final env b entry (n + 1) rootInfo calls final hroot hloop
  rw [List.take_length] at hclosed
  refine ⟨calls, graphOfTasks final, hbuild, ?_, nodup_keys_graphOfTasks final, ?_⟩
  · intro k
    rw [mem_keys_graphOfTasks]
    constructor
    · rintro ⟨hk, hne⟩
      obtain ⟨t, ht, hp⟩ := List.mem_map.mp hk
      rw [← hp]
      exact ⟨hreach t ht, by rw [hp]; exact hne⟩
    · rintro ⟨hk, hne⟩
      have hall : ∀ x, Reachable env b entry x → x ∈ final.map (fun t => t.path) := by
        intro x hx
        induction hx with
        | entry => exact hentry
        | dep m v info _ hp hv ih =>
          obtain ⟨t, ht, htp⟩ := List.mem_map.mp ih
          have hpt := hok t ht
          rw [htp, hp] at hpt
          have hinfo : info = t := Except.ok.inj hpt
          subst hinfo
          exact hclosed info ht v hv
      exact ⟨hall k hk, hne⟩
  · intro k hk
    obtain ⟨r, hr⟩ := (objGet_isSome_iff _ k).mpr hk
    obtain ⟨t, ht, htp, hrec⟩ := objGet_graphOfTasks final k r hr
    refine ⟨t, ?_, ?_⟩
    · rw [← htp]
      exact hok t ht
    · rw [hr, hrec]

/-! ## Finite acyclic import relations are the bounded ones -/

theorem importsBounded_child {Ast : Type} (env : Env Ast) (b : Bundler) (d : Nat)
    (m v : String) (h : importsBounded env b d m = true) (hi : Imports env b m v) :
    ∃ d1, d = d1 + 1 ∧ importsBounded env b d1 v = true := by
  obtain ⟨d1, info, hd, hp, hall⟩ := importsBounded_parse env b d m h
  obtain ⟨info1, hp1, hv⟩ := hi
  rw [hp] at hp1
  have : info = info1 := Except.ok.inj hp1
  subst this
  exact ⟨d1, hd, hall v hv⟩

theorem reachable_bounded {Ast : Type} (env : Env Ast) (b : Bundler) (d : Nat)
    (entry m : String) (h : importsBounded env b d entry = true)
    (hr : Reachable env b entry m) : importsBounded env b d m = true := by
  induction hr with
  | entry => exact h
  | dep m0 v info _ hp hv ih =>
    obtain ⟨d1, hd, hb⟩ := importsBounded_child env b d m0 v ih ⟨info, hp, hv⟩
    subst hd
    exact (importsBounded_succ env b d1 v hb).1

theorem transGen_bounded {Ast : Type} (env : Env Ast) (b : Bundler) (d : Nat) (m v : String)
    (h : importsBounded env b d m = true) (ht : Relation.TransGen (Imports env b) m v) :
    ∃ d2, d2 < d ∧ importsBounded env b d2 v = true := by
  induction ht with
  | single hi =>
    obtain ⟨d1, hd, hb⟩ := importsBounded_child env b d m _ h hi
    exact ⟨d1, by omega, hb⟩
  | tail _ hi ih =>
    obtain ⟨d2, hlt, hb2⟩ := ih
    obtain ⟨d3, hd, hb⟩ := importsBounded_child env b d2 _ _ hb2 hi
    exact ⟨d3, by omega, hb⟩

theorem acyclic_of_bounded {Ast : Type} (env : Env Ast) (b : Bundler) (d : Nat) :
    ∀ m, importsBounded env b d m = true → ¬ Relation.TransGen (Imports env b) m m := by
  induction d using Nat.strong_induction_on with
  | _ d ih =>
    intro m h ht
    obtain ⟨d2, hlt, hb⟩ := transGen_bounded env b d m m h ht
    exact ih d2 hlt m hb ht

theorem reflTransGen_of_reachable {Ast : Type} (env : Env Ast) (b : Bundler)
    (entry m : String) (hr : Reachable env b entry m) :
    Relation.ReflTransGen (Imports env b) entry m := by
  induction hr with
  | entry => exact Relation.ReflTransGen.refl
  | dep m0 v info _ hp hv ih => exact Relation.ReflTransGen.tail ih ⟨info, hp, hv⟩

theorem mem_modulesWithin {Ast : Type} (env : Env Ast) (b : Bundler) (d : Nat) :
    ∀ m v, importsBounded env b d m = true → Relation.ReflTransGen (Imports env b) m v →
      v ∈ modulesWithin env b d m := by
  induction d with
  | zero =>
    intro m v h
    simp [importsBounded] at h
  | succ d ih =>
    intro m v h hr
    obtain ⟨d1, info, hd, hp, hall⟩ := importsBounded_parse env b _ m h
    have hd1 : d = d1 := by omega
    subst hd1
    rw [modulesWithin]
    simp only [hp]
    rcases Relation.ReflTransGen.cases_head hr with heq | ⟨c, hmc, hcv⟩
    · rw [heq]
      exact List.mem_cons_self _ _
    · obtain ⟨info1, hp1, hc⟩ := hmc
      rw [hp] at hp1
      have : info = info1 := Except.ok.inj hp1
      subst this
      exact List.mem_cons_of_mem _ (List.mem_flatMap.mpr ⟨c, hc, ih c v (hall c hc) hcv⟩)

theorem importsBounded_of_finite_acyclic {Ast : Type} (env : Env Ast) (b : Bundler)
    (entry : String) (S : List String)
    (hparse : ∀ m, Reachable env b entry m → ∃ info, parseFile env b m = .ok info)
    (hfin : ∀ m, Reachable env b entry m → m ∈ S)
    (hacyc : ∀ m, Reachable env b entry m → ¬ Relation.TransGen (Imports env b) m m) :
    ∃ d, importsBounded env b d entry = true := by
  have aux : ∀ k, ∀ (m : String) (anc : Finset String), Reachable env b entry m →
      anc ⊆ S.toFinset → (∀ a ∈ anc, Relation.TransGen (Imports env b) a m) →
      S.toFinset.card ≤ anc.card + k → importsBounded env b k m = true := by
    intro k
    induction k with
    | zero =>
      intro m anc hr hsub hanc hcard
      exfalso
      have hm : m ∉ anc := fun hm => hacyc m hr (hanc m hm)
      have hsub1 : insert m anc ⊆ S.toFinset :=
        Finset.insert_subset (List.mem_toFinset.mpr (hfin m hr)) hsub
      have h1 := Finset.card_le_card hsub1
      rw [Finset.card_insert_of_not_mem hm] at h1
      omega
    | succ k ih =>
      intro m anc hr hsub hanc hcard
      have hm : m ∉ anc := fun hm => hacyc m hr (hanc m hm)
      obtain ⟨info, hp⟩ := hparse m hr
      rw [importsBounded]
      simp only [hp, List.all_eq_true]
      intro v hv
      apply ih v (insert m anc) (Reachable.dep m v info hr hp hv)
        (Finset.insert_subset (List.mem_toFinset.mpr (hfin m hr)) hsub)
      · intro a ha
        rcases Finset.mem_insert.mp ha with ha | ha
        · subst ha
          exact Relation.TransGen.single ⟨info, hp, hv⟩
        · exact Relation.TransGen.tail (hanc a ha) ⟨info, hp, hv⟩
      · rw [Finset.card_insert_of_not_mem hm]
        omega
  exact ⟨S.toFinset.card, aux _ entry ∅ Reachable.entry (Finset.empty_subset _)
    (fun a ha => by simp at ha) (by simp)⟩

theorem exact_reachability_except_proto {Ast : Type} (env : Env Ast) (b : Bundler)
    (entry : String) (S : List String)
    (hparse : ∀ m, Reachable env b entry m → ∃ info, parseFile env b m = .ok info)
    (hfin : ∀ m, Reachable env b entry m → m ∈ S)
    (hacyc : ∀ m, Reachable env b entry m → ¬ Relation.TransGen (Imports env b) m m) :
    ∃ fuel0, ∀ fuel, fuel0 ≤ fuel →
      ∃ calls graph, buildDependencyGraph env b fuel entry = some (calls, .ok graph) ∧
        (∀ k, k ∈ objKeys graph.props ↔ (Reachable env b entry k ∧ k ≠ "__proto__")) ∧
        (objKeys graph.props).Nodup ∧
        ∀ k ∈ objKeys graph.props, ∃ info, parseFile env b k = .ok info ∧
          objGet graph.props k =
            some { dependencies := info.dependencies, code := info.code } := by
  obtain ⟨d, hd⟩ := importsBounded_of_finite_acyclic env b entry S hparse hfin hacyc
  exact ⟨treeSize env b d entry + 1, fun fuel hfuel =>
    exact_reachability_bounded env b entry d hd fuel (by omega)⟩

/-- C4 (exact reachability) fails on the code: the project of `a.js` and the
file `__proto__` is finite and acyclic and both files are read and parsed; the
build returns, the module `__proto__` is reachable from the entry, and the
returned graph has no key and no record for it. -/
theorem proto_module_reachable_without_record :
    importsBounded protoEnv protoBundler 2 "a.js" = true ∧
    (∀ fuel, 3 ≤ fuel →
      buildDependencyGraph protoEnv protoBundler fuel "a.js" =
        some (["a.js", "__proto__"], .ok protoGraph)) ∧
    Reachable protoEnv protoBundler "a.js" "__proto__" ∧
    "__proto__" ∉ objKeys protoGraph.props ∧
    objGet protoGraph.props "__proto__" = none :=
  ⟨by decide, protoEnv_build,
    Reachable.dep "a.js" "__proto__"
      { dependencies := [("./__proto__", "__proto__")], code := "A", path := "a.js" }
      Reachable.entry (by decide) (by decide),
    by decide, by decide⟩

/-! ## Import cycles -/

theorem closedUnder_spec {Ast : Type} (env : Env Ast) (b : Bundler) (S : List String)
    (h : closedUnder env b S = true) (m : String) (hm : m ∈ S) :
    ∃ info, parseFile env b m = .ok info ∧ ∀ v ∈ objValues info.dependencies, v ∈ S := by
  simp only [closedUnder, List.all_eq_true] at h
  have h1 := h m hm
  cases hp : parseFile env b m with
  | error e => simp [hp] at h1
  | ok info =>
    simp only [hp, List.all_eq_true] at h1
    refine ⟨info, rfl, ?_⟩
    intro v hv
    have := h1 v hv
    simpa using this

theorem buildLoop_cycle {Ast : Type} (env : Env Ast) (b : Bundler) (A B : String)
    (S : List String) (hS : closedUnder env b S = true)
    (a : FileInfo) (hA : parseFile env b A = .ok a) (hAB : B ∈ objValues a.dependencies)
    (bi : FileInfo) (hB : parseFile env b B = .ok bi) (hBA : A ∈ objValues bi.dependencies)
    (fuel : Nat) :
    ∀ (i : Nat) (tasks : List FileInfo) (calls : List String),
      (∀ t ∈ tasks, parseFile env b t.path = .ok t) →
      (∀ t ∈ tasks, t.path ∈ S) →
      (∃ t ∈ tasks.drop i, t.path = A ∨ t.path = B) →
      buildLoop env b fuel i tasks calls = none := by
  induction fuel with
  | zero =>
    intro i tasks calls _ _ _
    rfl
  | succ fuel ih =>
    intro i tasks calls hok hin hcyc
    obtain ⟨tc, htc, hpc⟩ := hcyc
    have hlt : i < tasks.length := by
      rcases Nat.lt_or_ge i tasks.length with h | h
      · exact h
      · rw [List.drop_eq_nil_of_le h] at htc
        cases htc
    have hdrop : tasks.drop i = tasks[i] :: tasks.drop (i + 1) := List.drop_eq_getElem_cons hlt
    have hg : tasks.get? i = some tasks[i] := by
      rw [List.get?_eq_getElem?]
      exact List.getElem?_eq_getElem hlt
    have h0mem : tasks[i] ∈ tasks := List.getElem_mem hlt
    obtain ⟨info0, hp0, hch0⟩ := closedUnder_spec env b S hS _ (hin _ h0mem)
    have hinfo0 : info0 = tasks[i] := by
      have := hok _ h0mem
      rw [hp0] at this
      exact Except.ok.inj this
    obtain ⟨tasks1, hpd⟩ := parseDeps_total env b (objValues tasks[i].dependencies) tasks calls
      (fun v hv => by
        obtain ⟨i1, hp1, _⟩ := closedUnder_spec env b S hS v (hch0 v (by rw [hinfo0]; exact hv))
        exact ⟨i1, hp1⟩)
    obtain ⟨_, infos, ht1, hm, hall⟩ := parseDeps_ok env b _ _ _ _ _ hpd
    subst ht1
    rw [buildLoop_step env b fuel i tasks calls _ _ _ hg hpd]
    have hdrop1 : (tasks ++ infos).drop (i + 1) = tasks.drop (i + 1) ++ infos :=
      List.drop_append_of_le_length (Nat.succ_le_of_lt hlt)
    have hchild : ∀ v ∈ objValues tasks[i].dependencies, ∃ t ∈ infos, t.path = v := by
      intro v hv
      rw [← hm] at hv
      obtain ⟨t, ht, htp⟩ := List.mem_map.mp hv
      exact ⟨t, ht, htp⟩
    apply ih
    · intro t ht
      rcases List.mem_append.mp ht with ht | ht
      · exact hok t ht
      · exact hall t ht
    · intro t ht
      rcases List.mem_append.mp ht with ht | ht
      · exact hin t ht
      · apply hch0
        rw [hinfo0, ← hm]
        exact List.mem_map_of_mem _ ht
    · rw [hdrop1]
      rw [hdrop] at htc
      rcases List.mem_cons.mp htc with htc | htc
      · subst htc
        have hself := hok _ h0mem
        rcases hpc with hpc | hpc
        · rw [hpc, hA] at hself
          have ha : a = tasks[i] := Except.ok.inj hself
          obtain ⟨t, ht, htp⟩ := hchild B (by rw [← ha]; exact hAB)
          exact ⟨t, List.mem_append_right _ ht, Or.inr htp⟩
        · rw [hpc, hB] at hself
          have hb : bi = tasks[i] := Except.ok.inj hself
          obtain ⟨t, ht, htp⟩ := hchild A (by rw [← hb]; exact hBA)
          exact ⟨t, List.mem_append_right _ ht, Or.inl htp⟩
      · exact ⟨tc, List.mem_append_left _ htc, hpc⟩

theorem build_cycle_none {Ast : Type} (env : Env Ast) (b : Bundler) (A B : String)
    (S : List String) (hS : closedUnder env b S = true) (hmem : A ∈ S)
    (a : FileInfo) (hA : parseFile env b A = .ok a) (hAB : B ∈ objValues a.dependencies)
    (bi : FileInfo) (hB : parseFile env b B = .ok bi) (hBA : A ∈ objValues bi.dependencies)
    (fuel : Nat) : buildDependencyGraph env b fuel A = none := by
  have hpath := parseFile_path env b A a hA
  have hloop := buildLoop_cycle env b A B S hS a hA hAB bi hB hBA fuel 0 [a] [A]
    (by
      intro t ht
      rw [List.mem_singleton] at ht
      subst ht
      rw [hpath]
      exact hA)
    (by
      intro t ht
      rw [List.mem_singleton] at ht
      subst ht
      rw [hpath]
      exact hmem)
    ⟨a, by simp, Or.inl hpath⟩
  unfold buildDependencyGraph
  simp only [hA, hloop]

/-- C2 (termination on cycles) fails on the code: in the project where
`a.js` imports `./b.js` and `b.js` imports `./a.js`, the loop of
`buildDependencyGraph("a.js")` is still running after any number of
iterations, so no graph is ever returned. -/
theorem cycle_build_never_returns :
    ∀ fuel, buildDependencyGraph cycleEnv cycleBundler fuel "a.js" = none := by
  intro fuel
  exact build_cycle_none cycleEnv cycleBundler "a.js" "b.js" ["a.js", "b.js"]
    (by decide) (by decide)
    { dependencies := [("./b.js", "b.js")], code := "A", path := "a.js" } (by decide) (by decide)
    { dependencies := [("./a.js", "a.js")], code := "B", path := "b.js" } (by decide) (by decide)
    fuel

/-! ## Diamonds -/

/-- C3 (no duplicate parsing) fails on the code: in the diamond project (`a`
has the imports `b` and `c`, which both have the shared import `lib/d`) the
build returns for every fuel of at least 6, and `parseFile` was called twice on
the shared module `src/lib/d.js`, once per importer, not once. -/
theorem diamond_shared_module_parsed_twice :
    (∀ fuel, 6 ≤ fuel →
      buildDependencyGraph diamondEnv diamondBundler fuel "./src/a.js" =
        some (diamondCalls, .ok diamondGraph)) ∧
    diamondCalls.count "src/lib/d.js" = 2 ∧
    (objKeys diamondGraph.props).count "src/lib/d.js" = 1 :=
  ⟨fun fuel h =>
      buildDependencyGraph_mono diamondEnv diamondBundler 6 "./src/a.js" _ (by decide) fuel h,
    by decide, by decide⟩

/-! ## Paths: splitting, joining, normalizing -/

namespace PosixPath

theorem splitSlash_ne_nil (p : List Char) : splitSlash p ≠ [] := by
  cases p with
  | nil => simp [splitSlash]
  | cons c cs =>
    rw [splitSlash]
    split
    · simp
    · split <;> simp

theorem splitSlash_append_slash (a b : List Char) :
    splitSlash (a ++ '/' :: b) = splitSlash a ++ splitSlash b := by
  induction a with
  | nil => simp [splitSlash]
  | cons c cs ih =>
    by_cases hc : c = '/'
    · simp [splitSlash, hc, ih]
    · simp only [List.cons_append, splitSlash, hc, if_false]
      have ih1 : splitSlash (cs.append ('/' :: b)) = splitSlash cs ++ splitSlash b := ih
      rw [ih1]
      cases hs : splitSlash cs with
      | nil => exact absurd hs (splitSlash_ne_nil cs)
      | cons s ss => simp

theorem splitSlash_noslash (s : List Char) (h : '/' ∉ s) : splitSlash s = [s] := by
  induction s with
  | nil => rfl
  | cons c cs ih =>
    have hc : c ≠ '/' := fun hc => h (by simp [hc])
    have hcs : '/' ∉ cs := fun hm => h (List.mem_cons_of_mem _ hm)
    simp [splitSlash, hc, ih hcs]

theorem splitSlash_joinSlash (segs : List (List Char)) (hne : segs ≠ [])
    (h : ∀ s ∈ segs, '/' ∉ s) : splitSlash (joinSlash segs) = segs := by
  induction segs with
  | nil => exact absurd rfl hne
  | cons s rest ih =>
    cases rest with
    | nil => exact splitSlash_noslash s (h s (by simp))
    | cons t rest =>
      rw [joinSlash, splitSlash_append_slash, splitSlash_noslash s (h s (by simp)),
        ih (by simp) (fun x hx => h x (List.mem_cons_of_mem _ hx))]
      rfl

theorem noslash_of_mem_splitSlash (p : List Char) : ∀ s ∈ splitSlash p, '/' ∉ s := by
  induction p with
  | nil => simp [splitSlash]
  | cons c cs ih =>
    by_cases hc : c = '/'
    · intro s hs
      simp only [splitSlash, hc, if_true, List.mem_cons] at hs
      rcases hs with hs | hs
      · subst hs
        simp
      · exact ih s hs
    · intro s hs
      simp only [splitSlash, hc, if_false] at hs
      cases hsp : splitSlash cs with
      | nil => exact absurd hsp (splitSlash_ne_nil cs)
      | cons s0 ss =>
        rw [hsp] at hs ih
        simp only [List.mem_cons] at hs
        rcases hs with hs | hs
        · subst hs
          have h0 := ih s0 (by simp)
          intro hm
          rcases List.mem_cons.mp hm with hm | hm
          · exact hc hm.symm
          · exact h0 hm
        · exact ih s (List.mem_cons_of_mem _ hs)

theorem normStep_clean (a : Bool) (stack : List (List Char)) (s : List Char)
    (h : CleanSeg s) : normStep a stack s = s :: stack := by
  obtain ⟨h1, _, h3, h4⟩ := h
  simp [normStep, h1, h3, h4]

theorem foldl_normStep_clean (a : Bool) (segs stack : List (List Char)) (h : Clean segs) :
    segs.foldl (normStep a) stack = segs.reverse ++ stack := by
  induction segs generalizing stack with
  | nil => simp
  | cons s rest ih =>
    rw [List.foldl_cons, normStep_clean a stack s (h s (by simp)),
      ih _ (fun x hx => h x (List.mem_cons_of_mem _ hx))]
    simp

theorem normStep_empty (a : Bool) (stack : List (List Char)) : normStep a stack [] = stack := by
  simp [normStep]

theorem normStep_pop (a : Bool) (top : List Char) (rest : List (List Char))
    (h : CleanSeg top) : normStep a (top :: rest) ['.', '.'] = rest := by
  obtain ⟨_, _, _, h4⟩ := h
  simp [normStep, h4]

theorem foldl_normStep_pop (a : Bool) (d rest : List (List Char)) (h : Clean d) :
    (List.replicate d.length ['.', '.']).foldl (normStep a) (d ++ rest) = rest := by
  induction d with
  | nil => simp
  | cons top d ih =>
    simp only [List.length_cons, List.replicate_succ, List.foldl_cons, List.cons_append]
    rw [normStep_pop a top _ (h top (by simp))]
    exact ih (fun x hx => h x (List.mem_cons_of_mem _ hx))

theorem normStep_false_clean (stack : List (List Char)) (seg : List Char)
    (hs : Clean stack) (hseg : '/' ∉ seg) : Clean (normStep false stack seg) := by
  unfold normStep
  split
  · exact hs
  · split
    · exact hs
    · split
      · cases stack with
        | nil =>
          intro x hx
          simp at hx
        | cons top rest =>
          simp only
          split
          · simpa using hs
          · exact fun x hx => hs x (List.mem_cons_of_mem _ hx)
      · intro x hx
        rcases List.mem_cons.mp hx with hx | hx
        · subst hx
          exact ⟨by assumption, hseg, by assumption, by assumption⟩
        · exact hs x hx

theorem foldl_normStep_false_clean (segs stack : List (List Char)) (hs : Clean stack)
    (hseg : ∀ s ∈ segs, '/' ∉ s) : Clean (segs.foldl (normStep false) stack) := by
  induction segs generalizing stack with
  | nil => simpa using hs
  | cons s rest ih =>
    rw [List.foldl_cons]
    exact ih _ (normStep_false_clean stack s hs (hseg s (by simp)))
      (fun x hx => hseg x (List.mem_cons_of_mem _ hx))

theorem clean_reverse (segs : List (List Char)) (h : Clean segs) : Clean segs.reverse :=
  fun x hx => h x (List.mem_reverse.mp hx)

theorem absNorm_normalizeString (p : List Char) : AbsNorm ('/' :: normalizeString p false) :=
  ⟨_, clean_reverse _ (foldl_normStep_false_clean _ [] (fun x hx => by simp at hx)
    (noslash_of_mem_splitSlash p)), rfl⟩

theorem clean_segsOf (p : List Char) : Clean (segsOf p) :=
  clean_reverse _ (foldl_normStep_false_clean _ [] (fun x hx => by simp at hx)
    (noslash_of_mem_splitSlash p))

theorem resolveLoop_snd (ps : List (List Char)) (acc : List Char)
    (h : ∃ p ∈ ps, p.head? = some '/') : (resolveLoop ps acc).2 = true := by
  induction ps generalizing acc with
  | nil =>
    obtain ⟨p, hp, _⟩ := h
    simp at hp
  | cons q qs ih =>
    obtain ⟨p, hp, hhead⟩ := h
    unfold resolveLoop
    by_cases hq : q = []
    · simp only [hq, if_true]
      apply ih
      rcases List.mem_cons.mp hp with hp | hp
      · subst hp
        rw [hq] at hhead
        simp at hhead
      · exact ⟨p, hp, hhead⟩
    · simp only [hq, if_false]
      by_cases hqa : q.head? = some '/'
      · simp [hqa]
      · simp only [hqa, if_false]
        apply ih
        rcases List.mem_cons.mp hp with hp | hp
        · subst hp
          exact absurd hhead hqa
        · exact ⟨p, hp, hhead⟩

theorem absNorm_resolveChars (cwd : List Char) (args : List (List Char))
    (h : ∃ p ∈ args.reverse ++ [cwd], p.head? = some '/') :
    AbsNorm (resolveChars cwd args) := by
  have h2 := resolveLoop_snd _ [] h
  simp only [resolveChars, h2, if_true, Bool.not_true]
  exact absNorm_normalizeString _

theorem ne_nil_of_head (p : List Char) (h : p.head? = some '/') : p ≠ [] := by
  intro hp
  subst hp
  simp at h

theorem normalizeString_slash (p : List Char) :
    normalizeString (p ++ ['/']) false = joinSlash (segsOf p) := by
  unfold normalizeString segsOf
  rw [splitSlash_append_slash, List.foldl_append]
  simp [splitSlash, normStep_empty]

theorem resolveChars_one (cwd R : List Char) (hR : R.head? = some '/') :
    resolveChars cwd [R] = '/' :: joinSlash (segsOf R) := by
  have hne := ne_nil_of_head R hR
  simp only [resolveChars, List.reverse_cons, List.reverse_nil, List.nil_append,
    List.singleton_append, resolveLoop, hne, hR, if_true, if_false, Bool.not_true]
  rw [normalizeString_slash]

theorem resolveChars_empty (cwd R : List Char) :
    resolveChars cwd [R, []] = resolveChars cwd [R] := by
  simp [resolveChars, resolveLoop]

theorem resolveChars_rel (cwd R rel : List Char) (hR : R.head? = some '/')
    (hne : rel ≠ []) (hrel : rel.head? ≠ some '/') :
    resolveChars cwd [R, rel] = '/' :: joinSlash (segsOf (R ++ '/' :: rel)) := by
  have hRne := ne_nil_of_head R hR
  simp only [resolveChars, List.reverse_cons, List.reverse_nil, List.nil_append,
    List.singleton_append, List.cons_append, resolveLoop, hne, hrel, hRne, hR, if_true,
    if_false, Bool.not_true]
  rw [← normalizeString_slash]
  simp

theorem segsOf_absNorm (xs : List (List Char)) (h : Clean xs) :
    segsOf ('/' :: joinSlash xs) = xs := by
  unfold segsOf
  have h1 : splitSlash ('/' :: joinSlash xs) = [] :: splitSlash (joinSlash xs) := by
    simp [splitSlash]
  rw [h1, List.foldl_cons, normStep_empty]
  cases xs with
  | nil => simp [joinSlash, splitSlash, normStep_empty]
  | cons x rest =>
    rw [splitSlash_joinSlash _ (by simp) (fun s hs => (h s hs).2.1),
      foldl_normStep_clean _ _ _ h]
    simp

theorem resolveChars_absNorm_id (cwd X : List Char) (hX : AbsNorm X) :
    resolveChars cwd [X] = X := by
  obtain ⟨xs, hxs, rfl⟩ := hX
  rw [resolveChars_one cwd _ (by simp), segsOf_absNorm xs hxs]

theorem absSegs_absNorm (xs : List (List Char)) (h : Clean xs) :
    absSegs ('/' :: joinSlash xs) = xs := by
  unfold absSegs
  simp only [List.drop_succ_cons, List.drop_zero]
  cases xs with
  | nil => simp [joinSlash, splitSlash]
  | cons x rest =>
    rw [splitSlash_joinSlash _ (by simp) (fun s hs => (h s hs).2.1)]
    apply List.filter_eq_self.mpr
    intro s hs
    have := (h s hs).1
    simpa using this

theorem dropCommon_spec (fs xs : List (List Char)) :
    ∃ common, fs = common ++ (dropCommon fs xs).1 ∧ xs = common ++ (dropCommon fs xs).2 := by
  induction fs generalizing xs with
  | nil => exact ⟨[], by simp [dropCommon]⟩
  | cons f fs ih =>
    cases xs with
    | nil => exact ⟨[], by simp [dropCommon]⟩
    | cons x xs =>
      by_cases hfx : f = x
      · subst hfx
        obtain ⟨common, h1, h2⟩ := ih xs
        refine ⟨f :: common, ?_, ?_⟩
        · simp only [dropCommon, if_true, List.cons_append]
          rw [← h1]
        · simp only [dropCommon, if_true, List.cons_append]
          rw [← h2]
      · exact ⟨[], by simp [dropCommon, hfx]⟩

theorem joinSlash_cons_head (s : List Char) (rest : List (List Char)) (hs : s ≠ []) :
    (joinSlash (s :: rest)).head? = s.head? := by
  cases s with
  | nil => exact absurd rfl hs
  | cons c cs =>
    cases rest with
    | nil => rfl
    | cons t rest => rfl

theorem segsOf_append_join (R : List Char) (L : List (List Char)) (hL : L ≠ [])
    (hns : ∀ s ∈ L, '/' ∉ s) :
    segsOf (R ++ '/' :: joinSlash L) = (L.foldl (normStep false) (segsOf R).reverse).reverse := by
  unfold segsOf
  rw [splitSlash_append_slash, List.foldl_append, splitSlash_joinSlash L hL hns]
  simp

/-- Resolving, against the root, the relative path from the root to a
normalized absolute path gives that path back. -/
theorem resolve_relative (cwd R X : List Char) (hR : R.head? = some '/') (hX : AbsNorm X) :
    resolveChars cwd [R, relativeChars cwd R X] = X := by
  have hT := resolveChars_absNorm_id cwd X hX
  have hF := resolveChars_one cwd R hR
  unfold relativeChars
  by_cases h1 : R = X
  · simp only [h1, if_true]
    rw [resolveChars_empty, hT]
  · simp only [h1, if_false]
    by_cases h2 : resolveChars cwd [R] = resolveChars cwd [X]
    · simp only [h2, if_true]
      rw [resolveChars_empty, h2, hT]
    · simp only [h2, if_false]
      obtain ⟨xs, hxs, hXeq⟩ := hX
      have hfs := clean_segsOf R
      rw [hT, hF] at h2
      rw [hT, hF, absSegs_absNorm _ hfs, hXeq, absSegs_absNorm _ hxs]
      obtain ⟨common, hc1, hc2⟩ := dropCommon_spec (segsOf R) xs
      generalize (dropCommon (segsOf R) xs).1 = d1 at hc1 ⊢
      generalize (dropCommon (segsOf R) xs).2 = d2 at hc2 ⊢
      have hd1 : Clean d1 := fun s hs => hfs s (by rw [hc1]; exact List.mem_append_right _ hs)
      have hd2 : Clean d2 := fun s hs => hxs s (by rw [hc2]; exact List.mem_append_right _ hs)
      by_cases hL : List.replicate d1.length ['.', '.'] ++ d2 = []
      · exfalso
        have hd1nil : d1 = [] := by
          have := (List.append_eq_nil.mp hL).1
          cases d1 with
          | nil => rfl
          | cons a as => simp [List.replicate_succ] at this
        have hd2nil : d2 = [] := (List.append_eq_nil.mp hL).2
        apply h2
        rw [hXeq, hc1, hc2, hd1nil, hd2nil]
      · have hns : ∀ s ∈ List.replicate d1.length ['.', '.'] ++ d2, '/' ∉ s := by
          intro s hs
          rcases List.mem_append.mp hs with hs | hs
          · rw [(List.mem_replicate.mp hs).2]
            decide
          · exact (hd2 s hs).2.1
        have hne : ∀ s ∈ List.replicate d1.length ['.', '.'] ++ d2, s ≠ [] := by
          intro s hs
          rcases List.mem_append.mp hs with hs | hs
          · rw [(List.mem_replicate.mp hs).2]
            decide
          · exact (hd2 s hs).1
        have hrel : joinSlash (List.replicate d1.length ['.', '.'] ++ d2) ≠ [] ∧
            (joinSlash (List.replicate d1.length ['.', '.'] ++ d2)).head? ≠ some '/' := by
          cases hl : List.replicate d1.length ['.', '.'] ++ d2 with
          | nil => exact absurd hl hL
          | cons s rest =>
            have hs1 : s ≠ [] := hne s (by rw [hl]; simp)
            have hs2 : '/' ∉ s := hns s (by rw [hl]; simp)
            have hh := joinSlash_cons_head s rest hs1
            cases s with
            | nil => exact absurd rfl hs1
            | cons c cs =>
              constructor
              · intro hnil
                rw [hnil] at hh
                simp at hh
              · rw [hh]
                simp only [List.head?_cons, ne_eq, Option.some.injEq]
                intro hc
                exact hs2 (by simp [hc])
        rw [resolveChars_rel cwd R _ hR hrel.1 hrel.2, segsOf_append_join R _ hL hns,
          List.foldl_append]
        have hrev : (segsOf R).reverse = d1.reverse ++ common.reverse := by
          rw [hc1]
          simp
        have hlen : d1.length = d1.reverse.length := by simp
        rw [hrev, hlen, foldl_normStep_pop false d1.reverse _ (clean_reverse _ hd1),
          foldl_normStep_clean false d2 _ hd2, hc2]
        simp

/-! ## Paths: `dirname` of a normalized absolute path -/

theorem joinSlash_concat (init : List (List Char)) (last : List Char) (h : init ≠ []) :
    joinSlash (init ++ [last]) = joinSlash init ++ '/' :: last := by
  induction init with
  | nil => exact absurd rfl h
  | cons a rest ih =>
    cases rest with
    | nil => simp [joinSlash]
    | cons b rest =>
      have := ih (by simp)
      rw [List.cons_append] at this
      show a ++ '/' :: joinSlash (b :: (rest ++ [last])) = _
      rw [this]
      simp [joinSlash]

theorem dropWhile_all {α : Type} (p : α → Bool) (l : List α) (h : ∀ x ∈ l, p x = true) :
    l.dropWhile p = [] := by
  induction l with
  | nil => rfl
  | cons a l ih =>
    rw [List.dropWhile_cons, h a (by simp)]
    simp only [if_true]
    exact ih (fun x hx => h x (List.mem_cons_of_mem _ hx))

theorem dropWhile_append_all {α : Type} (p : α → Bool) (l r : List α)
    (h : ∀ x ∈ l, p x = true) : (l ++ r).dropWhile p = r.dropWhile p := by
  induction l with
  | nil => rfl
  | cons a l ih =>
    rw [List.cons_append, List.dropWhile_cons, h a (by simp)]
    simp only [if_true]
    exact ih (fun x hx => h x (List.mem_cons_of_mem _ hx))

theorem dropWhile_head_false {α : Type} (p : α → Bool) (a : α) (l : List α)
    (h : p a = false) : (a :: l).dropWhile p = a :: l := by
  rw [List.dropWhile_cons, h]
  simp

theorem joinSlash_ne_nil (xs : List (List Char)) (hne : xs ≠ []) (h : Clean xs) :
    joinSlash xs ≠ [] := by
  cases xs with
  | nil => exact absurd rfl hne
  | cons x rest =>
    have hx := (h x (by simp)).1
    have hh := joinSlash_cons_head x rest hx
    intro hnil
    rw [hnil] at hh
    cases x with
    | nil => exact hx rfl
    | cons c cs => simp at hh

theorem dirnameChars_absNorm (xs : List (List Char)) (h : Clean xs) :
    dirnameChars ('/' :: joinSlash xs) = '/' :: joinSlash xs.dropLast := by
  rcases List.eq_nil_or_concat xs with hx | ⟨init, last, hx⟩
  · subst hx
    simp [dirnameChars, joinSlash]
  · rw [List.concat_eq_append] at hx
    subst hx
    have hlast : CleanSeg last := h last (by simp)
    have hinit : Clean init := fun s hs => h s (by simp [hs])
    have hrev_ne : last.reverse ≠ [] := by simpa using hlast.1
    have hns : ∀ c ∈ last.reverse, c ≠ '/' := by
      intro c hc hcs
      subst hcs
      exact hlast.2.1 (List.mem_reverse.mp hc)
    rw [List.dropLast_concat]
    by_cases hi : init = []
    · subst hi
      simp only [List.nil_append, joinSlash, dirnameChars]
      have h1 : last.reverse.dropWhile (fun c => decide (c = '/')) = last.reverse := by
        cases hl : last.reverse with
        | nil => exact absurd hl hrev_ne
        | cons c cs =>
          apply dropWhile_head_false
          have := hns c (by rw [hl]; simp)
          simpa using this
      have h2 : last.reverse.dropWhile (fun c => decide (c ≠ '/')) = [] := by
        apply dropWhile_all
        intro c hc
        simpa using hns c hc
      rw [h1, h2]
      simp
    · rw [joinSlash_concat init last hi]
      simp only [dirnameChars, List.reverse_append, List.reverse_cons, List.append_assoc,
        List.singleton_append]
      have h1 : (last.reverse ++ '/' :: (joinSlash init).reverse).dropWhile
          (fun c => decide (c = '/')) = last.reverse ++ '/' :: (joinSlash init).reverse := by
        cases hl : last.reverse with
        | nil => exact absurd hl hrev_ne
        | cons c cs =>
          rw [List.cons_append]
          apply dropWhile_head_false
          have := hns c (by rw [hl]; simp)
          simpa using this
      have h2 : (last.reverse ++ '/' :: (joinSlash init).reverse).dropWhile
          (fun c => decide (c ≠ '/')) = '/' :: (joinSlash init).reverse := by
        rw [dropWhile_append_all _ _ _ (fun c hc => by simpa using hns c hc)]
        apply dropWhile_head_false
        simp
      rw [h1, h2]
      have h3 : (joinSlash init).reverse ≠ [] := by
        simpa using joinSlash_ne_nil init hi hinit
      simp [h3]

theorem absNorm_dirnameChars (X : List Char) (hX : AbsNorm X) : AbsNorm (dirnameChars X) := by
  obtain ⟨xs, hxs, rfl⟩ := hX
  rw [dirnameChars_absNorm xs hxs]
  exact ⟨xs.dropLast, fun s hs => hxs s (List.mem_of_mem_dropLast hs), rfl⟩

theorem absNorm_head (X : List Char) (hX : AbsNorm X) : X.head? = some '/' := by
  obtain ⟨xs, _, rfl⟩ := hX
  rfl

theorem absNorm_inj (xs ys : List (List Char)) (hx : Clean xs) (hy : Clean ys)
    (h : '/' :: joinSlash xs = '/' :: joinSlash ys) : xs = ys := by
  rw [← absSegs_absNorm xs hx, ← absSegs_absNorm ys hy, h]

/-- Resolving `./x` against a normalized absolute directory appends the segment `x`. -/
theorem resolveChars_dot_x (cwd : List Char) (ds : List (List Char)) (h : Clean ds) :
    resolveChars cwd ['/' :: joinSlash ds, ['.', '/', 'x']] = '/' :: joinSlash (ds ++ [['x']]) := by
  rw [resolveChars_rel cwd _ _ (by simp) (by simp) (by simp)]
  have hj : (['.', '/', 'x'] : List Char) = joinSlash [['.'], ['x']] := rfl
  rw [hj, segsOf_append_join _ _ (by simp) (by decide), segsOf_absNorm ds h]
  simp [normStep]

theorem resolveChars_dot_x_inj (cwd D1 D2 : List Char) (h1 : AbsNorm D1) (h2 : AbsNorm D2)
    (h : resolveChars cwd [D1, ['.', '/', 'x']] = resolveChars cwd [D2, ['.', '/', 'x']]) :
    D1 = D2 := by
  obtain ⟨ds1, hc1, rfl⟩ := h1
  obtain ⟨ds2, hc2, rfl⟩ := h2
  rw [resolveChars_dot_x cwd ds1 hc1, resolveChars_dot_x cwd ds2 hc2] at h
  have hx : CleanSeg ['x'] := by
    refine ⟨by simp, by decide, by decide, by decide⟩
  have hc1x : Clean (ds1 ++ [['x']]) := by
    intro s hs
    rcases List.mem_append.mp hs with hs | hs
    · exact hc1 s hs
    · rw [List.mem_singleton] at hs
      rw [hs]
      exact hx
  have hc2x : Clean (ds2 ++ [['x']]) := by
    intro s hs
    rcases List.mem_append.mp hs with hs | hs
    · exact hc2 s hs
    · rw [List.mem_singleton] at hs
      rw [hs]
      exact hx
  have := absNorm_inj _ _ hc1x hc2x h
  rw [List.append_cancel_right this]

end PosixPath


/-! ## Module identities -/

theorem foldl_objSet_mem (f : String → String) (keys : List String)
    (o : List (String × String)) (ho : ∀ kv ∈ o, kv.2 = f kv.1) :
    ∀ kv ∈ keys.foldl (fun deps dep => objSet deps dep (f dep)) o, kv.2 = f kv.1 := by
  induction keys generalizing o with
  | nil => simpa using ho
  | cons k ks ih =>
    rw [List.foldl_cons]
    apply ih
    intro kv hkv
    rcases mem_objSet o k (f k) kv hkv with h | h
    · rw [h]
    · exact ho kv h

theorem parseFile_dependencies {Ast : Type} (env : Env Ast) (b : Bundler) (m : String)
    (info : FileInfo) (h : parseFile env b m = .ok info) :
    ∀ kv ∈ info.dependencies, kv.2 = depRelPath env.cwd b.rootDir m kv.1 := by
  unfold parseFile at h
  simp only at h
  split at h
  · cases h
  · split at h
    · cases h
    · split at h
      · cases h
      · cases h
        exact foldl_objSet_mem (fun dep => depRelPath env.cwd b.rootDir m dep) _ []
          (fun kv hkv => by simp at hkv)

theorem absNorm_resolve (cwd R x : String) (hR : R.data.head? = some '/') :
    PosixPath.AbsNorm (PosixPath.resolve cwd [R, x]).data :=
  PosixPath.absNorm_resolveChars cwd.data [R.data, x.data] ⟨R.data, by simp, hR⟩

theorem absNorm_dirname_resolve (cwd R x : String) (hR : R.data.head? = some '/') :
    PosixPath.AbsNorm (PosixPath.dirname (PosixPath.resolve cwd [R, x])).data :=
  PosixPath.absNorm_dirnameChars _ (absNorm_resolve cwd R x hR)

theorem absNorm_depAbsPath (cwd R m dep : String) (hR : R.data.head? = some '/') :
    PosixPath.AbsNorm (depAbsPath cwd R m dep).data :=
  absNorm_resolve cwd _ dep
    (PosixPath.absNorm_head _ (absNorm_dirname_resolve cwd R m hR))

theorem resolve_relative_id (cwd R X : String) (hR : R.data.head? = some '/')
    (hX : PosixPath.AbsNorm X.data) :
    PosixPath.resolve cwd [R, PosixPath.relative cwd R X] = X := by
  have h := PosixPath.resolve_relative cwd.data R.data X.data hR hX
  show String.mk (PosixPath.resolveChars cwd.data
    [R.data, PosixPath.relativeChars cwd.data R.data X.data]) = X
  rw [h]

theorem relative_inj (cwd R X Y : String) (hR : R.data.head? = some '/')
    (hX : PosixPath.AbsNorm X.data) (hY : PosixPath.AbsNorm Y.data)
    (h : PosixPath.relative cwd R X = PosixPath.relative cwd R Y) : X = Y := by
  rw [← resolve_relative_id cwd R X hR hX, ← resolve_relative_id cwd R Y hR hY, h]

theorem depAbsPath_dot_x_inj (cwd R m1 m2 : String) (hR : R.data.head? = some '/')
    (h : depAbsPath cwd R m1 "./x" = depAbsPath cwd R m2 "./x") :
    PosixPath.dirname (PosixPath.resolve cwd [R, m1]) =
      PosixPath.dirname (PosixPath.resolve cwd [R, m2]) := by
  have h1 := absNorm_dirname_resolve cwd R m1 hR
  have h2 := absNorm_dirname_resolve cwd R m2 hR
  have hd : (depAbsPath cwd R m1 "./x").data = (depAbsPath cwd R m2 "./x").data := by rw [h]
  have := PosixPath.resolveChars_dot_x_inj cwd.data _ _ h1 h2 hd
  exact String.ext this

theorem reachable_cases {Ast : Type} (env : Env Ast) (b : Bundler) (entry k : String)
    (h : Reachable env b entry k) :
    k = entry ∨ ∃ m info, parseFile env b m = .ok info ∧ k ∈ objValues info.dependencies := by
  cases h with
  | entry => exact Or.inl rfl
  | dep m v info _ hp hv => exact Or.inr ⟨m, info, hp, hv⟩

/-! ## Claims about module identities -/

/-- C7 (identity of imports): with an absolute project root, the identities that
`parseFile` records for specifier `s1` in module `m1` and for `s2` in `m2` are
equal if and only if the two specifiers resolve to the same absolute path; and
two modules whose directories differ record different identities for `./x`. -/
theorem import_identity_iff {Ast : Type} (env : Env Ast) (b : Bundler)
    (hroot : b.rootDir.data.head? = some '/')
    (m1 m2 s1 s2 v1 v2 : String) (info1 info2 : FileInfo)
    (h1 : parseFile env b m1 = .ok info1) (h2 : parseFile env b m2 = .ok info2)
    (hv1 : objGet info1.dependencies s1 = some v1)
    (hv2 : objGet info2.dependencies s2 = some v2) :
    (v1 = v2 ↔ depAbsPath env.cwd b.rootDir m1 s1 = depAbsPath env.cwd b.rootDir m2 s2) ∧
    (s1 = "./x" → s2 = "./x" →
      PosixPath.dirname (PosixPath.resolve env.cwd [b.rootDir, m1]) ≠
        PosixPath.dirname (PosixPath.resolve env.cwd [b.rootDir, m2]) →
      v1 ≠ v2) := by
  have e1 : v1 = depRelPath env.cwd b.rootDir m1 s1 :=
    parseFile_dependencies env b m1 info1 h1 (s1, v1) (objGet_mem _ _ _ hv1)
  have e2 : v2 = depRelPath env.cwd b.rootDir m2 s2 :=
    parseFile_dependencies env b m2 info2 h2 (s2, v2) (objGet_mem _ _ _ hv2)
  have hiff : v1 = v2 ↔
      depAbsPath env.cwd b.rootDir m1 s1 = depAbsPath env.cwd b.rootDir m2 s2 := by
    rw [e1, e2]
    constructor
    · intro h
      exact relative_inj env.cwd b.rootDir _ _ hroot
        (absNorm_depAbsPath _ _ _ _ hroot) (absNorm_depAbsPath _ _ _ _ hroot) h
    · intro h
      unfold depRelPath
      rw [h]
  refine ⟨hiff, ?_⟩
  intro hs1 hs2 hdir hv
  subst hs1
  subst hs2
  exact hdir (depAbsPath_dot_x_inj env.cwd b.rootDir m1 m2 hroot (hiff.mp hv))

/-- Identity of imports at the two-directory project: `p/m.js` and `q/m.js`
both import `./x` and record `p/x` and `q/x`. -/
theorem import_identity_iff_witness :
    isolationBundler.rootDir.data.head? = some '/' ∧
    (("p/x" : String) = "q/x" ↔
      depAbsPath isolationEnv.cwd isolationBundler.rootDir "p/m.js" "./x" =
        depAbsPath isolationEnv.cwd isolationBundler.rootDir "q/m.js" "./x") ∧
    (("./x" : String) = "./x" → ("./x" : String) = "./x" →
      PosixPath.dirname (PosixPath.resolve isolationEnv.cwd [isolationBundler.rootDir, "p/m.js"]) ≠
        PosixPath.dirname (PosixPath.resolve isolationEnv.cwd [isolationBundler.rootDir, "q/m.js"]) →
      ("p/x" : String) ≠ "q/x") :=
  ⟨by decide,
    import_identity_iff isolationEnv isolationBundler (by decide)
      "p/m.js" "q/m.js" "./x" "./x" "p/x" "q/x"
      { dependencies := [("./x", "p/x")], code := "PM", path := "p/m.js" }
      { dependencies := [("./x", "q/x")], code := "QM", path := "q/m.js" }
      (by decide) (by decide) (by decide) (by decide)⟩

/-- C8 (canonical keys) fails on the code: built with no options, the bundler
uses the entry `./src/index.js`, and the key of the entry in the returned graph
is that text itself, which differs from the normalized root-relative path
`src/index.js`. -/
theorem entry_key_not_canonical :
    ¬ (∀ calls graph,
        buildDependencyGraph singleEnv singleBundler 5 singleBundler.entry =
          some (calls, .ok graph) →
        ∀ k ∈ objKeys graph.props,
          k = PosixPath.relative singleEnv.cwd singleBundler.rootDir
            (PosixPath.resolve singleEnv.cwd [singleBundler.rootDir, k])) := by
  intro h
  have h1 := h ["./src/index.js"]
    { props := [("./src/index.js", { dependencies := [], code := "I" })], proto := none }
    (by decide) "./src/index.js" (by decide)
  revert h1
  decide

/-- C8 as amended: with an absolute project root, every key of the returned
graph other than the entry's is the normalized root-relative path of its file,
`key = relative(rootDir, resolve(rootDir, key))`; an entry given as a relative
path (other than `__proto__`) is a key exactly as it was given, and
`parseFile(p).path` is `p` as given for every `p`. -/
theorem dependency_keys_canonical {Ast : Type} (env : Env Ast) (b : Bundler)
    (hroot : b.rootDir.data.head? = some '/') (fuel : Nat) (entry : String)
    (calls : List String) (graph : Graph)
    (h : buildDependencyGraph env b fuel entry = some (calls, .ok graph)) :
    (entry ≠ "__proto__" → entry.data.head? ≠ some '/' → entry ∈ objKeys graph.props) ∧
    (∀ k ∈ objKeys graph.props, k = entry ∨
      k = PosixPath.relative env.cwd b.rootDir (PosixPath.resolve env.cwd [b.rootDir, k])) ∧
    (∀ p info, parseFile env b p = .ok info → info.path = p) := by
  obtain ⟨final, hg, _, _, hreach, hentry, _⟩ := buildDependencyGraph_ok env b fuel entry calls graph h
  subst hg
  refine ⟨fun hne _ => (mem_keys_graphOfTasks final entry).mpr ⟨hentry, hne⟩, ?_,
    parseFile_path env b⟩
  intro k hk
  rw [mem_keys_graphOfTasks] at hk
  obtain ⟨t, ht, htp⟩ := List.mem_map.mp hk.1
  have hr := hreach t ht
  rw [htp] at hr
  rcases reachable_cases env b entry k hr with hk1 | ⟨m, info, hp, hv⟩
  · exact Or.inl hk1
  · right
    obtain ⟨s, hs⟩ := (mem_objValues _ _).mp hv
    have e := parseFile_dependencies env b m info hp (s, k) hs
    simp only at e
    have hX := absNorm_depAbsPath env.cwd b.rootDir m s hroot
    have hid := resolve_relative_id env.cwd b.rootDir _ hroot hX
    rw [e]
    unfold depRelPath
    rw [hid]

/-- The amended canonical-key statement at the diamond project: the entry
`./src/a.js` is a key as given, and every other key, such as `src/lib/d.js`, is
its own normalized root-relative path. -/
theorem dependency_keys_canonical_witness :
    diamondBundler.rootDir.data.head? = some '/' ∧
    buildDependencyGraph diamondEnv diamondBundler 10 "./src/a.js" =
      some (diamondCalls, .ok diamondGraph) ∧
    ((("./src/a.js" : String) ≠ "__proto__" → ("./src/a.js" : String).data.head? ≠ some '/' →
      "./src/a.js" ∈ objKeys diamondGraph.props) ∧
    (∀ k ∈ objKeys diamondGraph.props, k = "./src/a.js" ∨
      k = PosixPath.relative diamondEnv.cwd diamondBundler.rootDir
        (PosixPath.resolve diamondEnv.cwd [diamondBundler.rootDir, k])) ∧
    (∀ p info, parseFile diamondEnv diamondBundler p = .ok info → info.path = p)) :=
  ⟨by decide, by decide,
    dependency_keys_canonical diamondEnv diamondBundler (by decide) 10 "./src/a.js"
      diamondCalls diamondGraph (by decide)⟩

/-! ## Failing builds -/

theorem parseDeps_error {Ast : Type} (env : Env Ast) (b : Bundler) (deps : List String)
    (tasks : List FileInfo) (calls : List String) (v : String) (e : BuildError)
    (hv : v ∈ deps) (he : parseFile env b v = .error e) :
    ∃ calls1 e1, parseDeps env b deps tasks calls = (calls1, .error e1) := by
  induction deps generalizing tasks calls with
  | nil => simp at hv
  | cons dep deps ih =>
    cases hp : parseFile env b dep with
    | error e0 => exact ⟨calls ++ [dep], e0, by simp [parseDeps, hp]⟩
    | ok info =>
      rcases List.mem_cons.mp hv with hv | hv
      · subst hv
        rw [hp] at he
        cases he
      · obtain ⟨c1, e1, h1⟩ := ih (tasks ++ [info]) (calls ++ [dep]) hv
        exact ⟨c1, e1, by simp [parseDeps, hp, h1]⟩

theorem failWithin_zero_ok {Ast : Type} (env : Env Ast) (b : Bundler) (m : String)
    (info : FileInfo) (hp : parseFile env b m = .ok info) : failWithin env b 0 m = false := by
  simp [failWithin, hp]

theorem failWithin_succ_ok {Ast : Type} (env : Env Ast) (b : Bundler) (d : Nat) (m : String)
    (info : FileInfo) (hp : parseFile env b m = .ok info)
    (h : failWithin env b (d + 1) m = true) :
    ∃ v ∈ objValues info.dependencies, failWithin env b d v = true := by
  simp only [failWithin, hp, List.any_eq_true] at h
  exact h

theorem buildLoop_fails {Ast : Type} (env : Env Ast) (b : Bundler) (d : Nat) :
    ∀ (n i : Nat) (tasks : List FileInfo) (calls : List String) (j : Nat) (t : FileInfo),
      (∀ t ∈ tasks, parseFile env b t.path = .ok t) →
      i ≤ j → j - i ≤ n → tasks.get? j = some t →
      failWithin env b d t.path = true →
      ∃ fuel calls1 e, buildLoop env b fuel i tasks calls = some (calls1, .error e) := by
  induction d with
  | zero =>
    intro n i tasks calls j t hok _ _ hj hf
    rw [failWithin_zero_ok env b t.path t (hok t (List.get?_mem hj))] at hf
    cases hf
  | succ d ihd =>
    intro n
    induction n with
    | zero =>
      intro i tasks calls j t hok hij hn hj hf
      have hji : j = i := by omega
      subst hji
      obtain ⟨v, hv, hfv⟩ := failWithin_succ_ok env b d t.path t (hok t (List.get?_mem hj)) hf
      cases hp : parseDeps env b (objValues t.dependencies) tasks calls with
      | mk c1 res =>
        cases res with
        | error e =>
          refine ⟨1, c1, e, ?_⟩
          rw [buildLoop]
          simp only [hj, hp]
        | ok tasks1 =>
          obtain ⟨_, infos, ht1, hm, hall⟩ := parseDeps_ok env b _ _ _ _ _ hp
          subst ht1
          rw [← hm] at hv
          obtain ⟨info, hinfo, hpath⟩ := List.mem_map.mp hv
          obtain ⟨k, hk⟩ := List.mem_iff_get?.mp hinfo
          have hklt : k < infos.length := by
            rcases Nat.lt_or_ge k infos.length with h | h
            · exact h
            · rw [List.get?_eq_none.mpr h] at hk
              cases hk
          have hjlt : j < tasks.length := by
            rcases Nat.lt_or_ge j tasks.length with h | h
            · exact h
            · rw [List.get?_eq_none.mpr h] at hj
              cases hj
          have hget : (tasks ++ infos).get? (tasks.length + k) = some info := by
            rw [List.get?_eq_getElem?, List.getElem?_append_right (by omega)]
            rw [List.get?_eq_getElem?] at hk
            simpa using hk
          obtain ⟨fuel, c2, e, hfuel⟩ := ihd (tasks.length + k - (j + 1)) (j + 1)
            (tasks ++ infos) c1 (tasks.length + k) info
            (by
              intro t1 ht1
              rcases List.mem_append.mp ht1 with ht1 | ht1
              · exact hok t1 ht1
              · exact hall t1 ht1)
            (by omega) (Nat.le_refl _) hget (by rw [hpath]; exact hfv)
          refine ⟨fuel + 1, c2, e, ?_⟩
          rw [buildLoop_step env b fuel j tasks calls t _ _ hj hp]
          exact hfuel
    | succ n ihn =>
      intro i tasks calls j t hok hij hn hj hf
      rcases Nat.eq_or_lt_of_le hij with hij1 | hij1
      · subst hij1
        exact ihn i tasks calls i t hok (Nat.le_refl _) (by omega) hj hf
      · have hjlt : j < tasks.length := by
          rcases Nat.lt_or_ge j tasks.length with h | h
          · exact h
          · rw [List.get?_eq_none.mpr h] at hj
            cases hj
        have hilt : i < tasks.length := by omega
        have hgi : tasks.get? i = some tasks[i] := by
          rw [List.get?_eq_getElem?]
          exact List.getElem?_eq_getElem hilt
        cases hp : parseDeps env b (objValues tasks[i].dependencies) tasks calls with
        | mk c1 res =>
          cases res with
          | error e =>
            refine ⟨1, c1, e, ?_⟩
            rw [buildLoop]
            simp only [hgi, hp]
          | ok tasks1 =>
            obtain ⟨_, infos, ht1, hm, hall⟩ := parseDeps_ok env b _ _ _ _ _ hp
            subst ht1
            have hget : (tasks ++ infos).get? j = some t := by
              rw [List.get?_eq_getElem?, List.getElem?_append_left hjlt]
              rw [List.get?_eq_getElem?] at hj
              exact hj
            obtain ⟨fuel, c2, e, hfuel⟩ := ihn (i + 1) (tasks ++ infos) c1 j t
              (by
                intro t1 ht1
                rcases List.mem_append.mp ht1 with ht1 | ht1
                · exact hok t1 ht1
                · exact hall t1 ht1)
              (by omega) (by omega) hget hf
            refine ⟨fuel + 1, c2, e, ?_⟩
            rw [buildLoop_step env b fuel i tasks calls _ _ _ hgi hp]
            exact hfuel

theorem build_fails_of_failWithin {Ast : Type} (env : Env Ast) (b : Bundler) (d : Nat)
    (entry : String) (h : failWithin env b d entry = true) :
    ∃ fuel calls e, buildDependencyGraph env b fuel entry = some (calls, .error e) := by
  cases hroot : parseFile env b entry with
  | error e => exact ⟨0, [entry], e, by simp [buildDependencyGraph, hroot]⟩
  | ok rootInfo =>
    have hpath := parseFile_path env b entry rootInfo hroot
    obtain ⟨fuel, c, e, hl⟩ := buildLoop_fails env b d 0 0 [rootInfo] [entry] 0 rootInfo
      (by
        intro t ht
        rw [List.mem_singleton] at ht
        subst ht
        rw [hpath]
        exact hroot)
      (Nat.le_refl _) (Nat.le_refl _) rfl (by rw [hpath]; exact h)
    exact ⟨fuel, c, e, by simp [buildDependencyGraph, hroot, hl]⟩

theorem failWithin_of_reachable {Ast : Type} (env : Env Ast) (b : Bundler) (entry m : String)
    (hr : Reachable env b entry m) :
    ∀ d, failWithin env b d m = true → ∃ d1, failWithin env b d1 entry = true := by
  induction hr with
  | entry => exact fun d h => ⟨d, h⟩
  | dep m0 v info _ hp hv ih =>
    intro d h
    apply ih (d + 1)
    simp only [failWithin, hp, List.any_eq_true]
    exact ⟨v, hv, h⟩

theorem bundle_of_build_error {Ast : Type} (env : Env Ast) (b : Bundler) (fuel : Nat)
    (calls : List String) (e : BuildError)
    (h : buildDependencyGraph env b fuel b.entry = some (calls, .error e)) :
    bundle env b fuel = some (.error e, []) := by
  simp [bundle, generateCode, h]

theorem bundle_of_build_none {Ast : Type} (env : Env Ast) (b : Bundler) (fuel : Nat)
    (h : buildDependencyGraph env b fuel b.entry = none) : bundle env b fuel = none := by
  simp [bundle, generateCode, h]

/-- C5 (all-or-nothing bundling): if `parseFile` throws on the entry or on any
module reached from it, then `bundle()` fails, for every fuel from some bound
on, with no write to the file system (no directory made, no file written); and
with less fuel it is either still running or has failed in the same way. -/
theorem bundle_all_or_nothing {Ast : Type} (env : Env Ast) (b : Bundler) (m : String)
    (e : BuildError) (hreach : Reachable env b b.entry m)
    (hfail : parseFile env b m = .error e) :
    ∃ fuel0 e1,
      (∀ fuel, fuel0 ≤ fuel → bundle env b fuel = some (.error e1, [])) ∧
      (∀ fuel, bundle env b fuel = none ∨ bundle env b fuel = some (.error e1, [])) := by
  obtain ⟨d, hd⟩ := failWithin_of_reachable env b b.entry m hreach 0
    (by simp [failWithin, hfail])
  obtain ⟨fuel0, calls, e1, hb⟩ := build_fails_of_failWithin env b d b.entry hd
  have hge : ∀ fuel, fuel0 ≤ fuel → bundle env b fuel = some (.error e1, []) := fun fuel hle =>
    bundle_of_build_error env b fuel calls e1
      (buildDependencyGraph_mono env b fuel0 b.entry _ hb fuel hle)
  refine ⟨fuel0, e1, hge, ?_⟩
  intro fuel
  rcases Nat.le_total fuel0 fuel with hle | hle
  · exact Or.inr (hge fuel hle)
  · cases hbf : buildDependencyGraph env b fuel b.entry with
    | none => exact Or.inl (bundle_of_build_none env b fuel hbf)
    | some r =>
      have := buildDependencyGraph_mono env b fuel b.entry r hbf fuel0 hle
      rw [hb] at this
      cases this
      exact Or.inr (bundle_of_build_error env b fuel calls e1 hbf)

/-- All-or-nothing bundling at the missing-import project: the entry is parsed,
its import `src/missing` cannot be read, and nothing is written. -/
theorem bundle_all_or_nothing_witness :
    Reachable missingImportEnv missingImportBundler missingImportBundler.entry "src/missing" ∧
    parseFile missingImportEnv missingImportBundler "src/missing" =
      .error (.readError "/proj/src/missing") ∧
    ∃ fuel0 e1,
      (∀ fuel, fuel0 ≤ fuel →
        bundle missingImportEnv missingImportBundler fuel = some (.error e1, [])) ∧
      (∀ fuel, bundle missingImportEnv missingImportBundler fuel = none ∨
        bundle missingImportEnv missingImportBundler fuel = some (.error e1, [])) :=
  have hreach : Reachable missingImportEnv missingImportBundler
      missingImportBundler.entry "src/missing" :=
    Reachable.dep "./src/index.js" "src/missing"
      { dependencies := [("./missing", "src/missing")], code := "I", path := "./src/index.js" }
      Reachable.entry (by decide) (by decide)
  ⟨hreach, by decide,
    bundle_all_or_nothing missingImportEnv missingImportBundler "src/missing"
      (.readError "/proj/src/missing") hreach (by decide)⟩

/-! ## Kinds of failure -/

theorem parseFile_unreadable {Ast : Type} (env : Env Ast) (b : Bundler) (p : String)
    (h : env.readFileSync (PosixPath.resolve env.cwd [b.rootDir, p]) = none) :
    parseFile env b p = .error (.readError (PosixPath.resolve env.cwd [b.rootDir, p])) := by
  simp [parseFile, h]

theorem parseDeps_prefix_error {Ast : Type} (env : Env Ast) (b : Bundler)
    (pre : List String) (v : String) (post : List String) (e : BuildError)
    (hpre : ∀ d ∈ pre, ∃ i, parseFile env b d = .ok i) (hv : parseFile env b v = .error e) :
    ∀ (tasks : List FileInfo) (calls : List String),
      parseDeps env b (pre ++ v :: post) tasks calls = (calls ++ pre ++ [v], .error e) := by
  induction pre with
  | nil =>
    intro tasks calls
    simp [parseDeps, hv]
  | cons d pre ih =>
    intro tasks calls
    obtain ⟨i, hi⟩ := hpre d (by simp)
    have h1 := ih (fun x hx => hpre x (List.mem_cons_of_mem _ hx)) (tasks ++ [i]) (calls ++ [d])
    rw [List.cons_append, parseDeps]
    simp only [hi]
    rw [h1]
    simp

/-- C9 (distinct failure kinds) fails on the code: a missing import and a
missing entry both end in the exception of `fs.readFileSync`, so the two
failures have the same kind. -/
theorem missing_import_same_kind_as_missing_entry :
    ¬ (∀ calls1 e1 calls2 e2,
        buildDependencyGraph missingImportEnv missingImportBundler 5
          missingImportBundler.entry = some (calls1, .error e1) →
        buildDependencyGraph noEntryEnv noEntryBundler 5
          noEntryBundler.entry = some (calls2, .error e2) →
        e1.kind ≠ e2.kind) := by
  intro h
  exact h ["./src/index.js", "src/missing"] (.readError "/proj/src/missing")
    ["./src/index.js"] (.readError "/proj/src/index.js") (by decide) (by decide) (by decide)

/-- C9 as amended: a build whose entry cannot be read fails with the read
failure of that file after a single `parseFile` call, so no dependency is
parsed; a build whose entry imports a file that cannot be read fails with the
read failure of the resolved import, after the entry and the imports before it
were parsed; the two failures have the same kind, which differs from the kind
of a parse failure. -/
theorem missing_file_failures {Ast : Type} (env : Env Ast) (b : Bundler) (entry : String) :
    (env.readFileSync (PosixPath.resolve env.cwd [b.rootDir, entry]) = none →
      ∀ fuel, buildDependencyGraph env b fuel entry =
        some ([entry], .error (.readError (PosixPath.resolve env.cwd [b.rootDir, entry])))) ∧
    (∀ info pre v post, parseFile env b entry = .ok info →
      objValues info.dependencies = pre ++ v :: post →
      (∀ d ∈ pre, ∃ i, parseFile env b d = .ok i) →
      env.readFileSync (PosixPath.resolve env.cwd [b.rootDir, v]) = none →
      ∀ fuel, 0 < fuel → buildDependencyGraph env b fuel entry =
        some (entry :: pre ++ [v],
          .error (.readError (PosixPath.resolve env.cwd [b.rootDir, v])))) ∧
    (∀ p q r, (BuildError.readError p).kind = (BuildError.readError q).kind ∧
      (BuildError.readError p).kind ≠ (BuildError.parseError r).kind) := by
  refine ⟨?_, ?_, ?_⟩
  · intro h fuel
    simp [buildDependencyGraph, parseFile_unreadable env b entry h]
  · intro info pre v post hinfo hvals hpre hv fuel hfuel
    obtain ⟨n, hn⟩ : ∃ n, fuel = n + 1 := ⟨fuel - 1, by omega⟩
    subst hn
    have hpd := parseDeps_prefix_error env b pre v post _ hpre
      (parseFile_unreadable env b v hv) [info] [entry]
    have hloop : buildLoop env b (n + 1) 0 [info] [entry] =
        some (entry :: pre ++ [v],
          .error (.readError (PosixPath.resolve env.cwd [b.rootDir, v]))) := by
      rw [buildLoop]
      have hg : [info].get? 0 = some info := rfl
      simp only [hg, hvals, hpd]
      simp
    simp only [buildDependencyGraph, hinfo, hloop]
  · intro p q r
    exact ⟨rfl, by simp [BuildError.kind]⟩

/-- The amended failure statement at the empty project and at the
missing-import project. -/
theorem missing_file_failures_witness :
    (buildDependencyGraph noEntryEnv noEntryBundler 3 "./src/index.js" =
      some (["./src/index.js"], .error (.readError "/proj/src/index.js"))) ∧
    (buildDependencyGraph missingImportEnv missingImportBundler 3 "./src/index.js" =
      some (["./src/index.js", "src/missing"], .error (.readError "/proj/src/missing"))) :=
  ⟨(missing_file_failures noEntryEnv noEntryBundler "./src/index.js").1 (by decide) 3,
    (missing_file_failures missingImportEnv missingImportBundler "./src/index.js").2.1
      { dependencies := [("./missing", "src/missing")], code := "I", path := "./src/index.js" }
      [] "src/missing" [] (by decide) (by decide) (by simp) (by decide) 3 (by decide)⟩

/-! ## Configuration -/

theorem bundle_writes {Ast : Type} (env : Env Ast) (b : Bundler) (fuel : Nat)
    (ops : List FsOp) (outPath : String) (hp : b.output.path = some outPath)
    (h : bundle env b fuel = some (.ok (), ops)) :
    ∃ code,
      ops = [.writeFile (PosixPath.resolve env.cwd
        [PosixPath.resolve env.cwd [outPath], "./" ++ interpolate b.output.filename]) code] ∨
      ops = [.mkdir (PosixPath.resolve env.cwd [outPath]),
        .writeFile (PosixPath.resolve env.cwd
          [PosixPath.resolve env.cwd [outPath], "./" ++ interpolate b.output.filename]) code] := by
  unfold bundle at h
  cases hg : generateCode env b fuel b.entry with
  | none => simp [hg] at h
  | some res =>
    obtain ⟨calls, r⟩ := res
    cases r with
    | error e => simp [hg] at h
    | ok code =>
      simp only [hg, hp] at h
      refine ⟨code, ?_⟩
      split at h
      · split at h
        · simp only [Option.some.injEq, Prod.mk.injEq, true_and] at h
          exact Or.inl h.symm
        · simp at h
      · split at h
        · split at h
          · simp only [Option.some.injEq, Prod.mk.injEq, true_and] at h
            exact Or.inr h.symm
          · simp at h
        · simp at h

theorem bundle_last_write {Ast : Type} (env : Env Ast) (b : Bundler) (fuel : Nat)
    (ops : List FsOp) (outPath : String) (hp : b.output.path = some outPath)
    (h : bundle env b fuel = some (.ok (), ops)) :
    ∃ code, ops.getLast? = some (.writeFile
      (PosixPath.resolve env.cwd
        [PosixPath.resolve env.cwd [outPath], "./" ++ interpolate b.output.filename]) code) := by
  obtain ⟨code, h1 | h1⟩ := bundle_writes env b fuel ops outPath hp h
  · exact ⟨code, by rw [h1]; rfl⟩
  · exact ⟨code, by rw [h1]; rfl⟩

set_option maxRecDepth 100000 in
/-- C10 (defaults per field) fails on the code: with options that give only
`output.path`, the bundler's `output.filename` stays `undefined`, not
`bundle.js`, and the bundle is written to `/proj/out/undefined`. -/
theorem defaults_not_per_field :
    (Bundler.new singleEnv pathOnlyOptions).output.filename ≠ some "bundle.js" ∧
    bundle singleEnv (Bundler.new singleEnv pathOnlyOptions) 5 =
      some (.ok (), [.mkdir "/proj/out",
        .writeFile "/proj/out/undefined"
          (bundleTemplate "./src/index.js"
            (singleEnv.stringify
              { props := [("./src/index.js", { dependencies := [], code := "I" })],
                proto := none }))]) := by
  decide

/-- C10 as amended: the effective entry is `options.entry`, or `./src/index.js`
when it is absent or empty; the effective `output` is `options.output` as given
when it is present, and `path: ./dist, filename: bundle.js` only when
`options.output` is absent as a whole.  So with no `output` option a successful
`bundle()` ends by writing `dist/bundle.js` under the working directory, and
with both fields given it ends by writing `filename` under `path`. -/
theorem constructor_defaults {Ast : Type} (env : Env Ast) (options : Options) :
    (Bundler.new env options).entry = orDefault options.entry "./src/index.js" ∧
    (Bundler.new env options).rootDir = env.cwd ∧
    (options.output = none →
      (Bundler.new env options).output = { path := some "./dist", filename := some "bundle.js" } ∧
      ∀ fuel ops, bundle env (Bundler.new env options) fuel = some (.ok (), ops) →
        ∃ code, ops.getLast? = some (.writeFile
          (PosixPath.resolve env.cwd [PosixPath.resolve env.cwd ["./dist"], "./bundle.js"])
          code)) ∧
    (∀ out, options.output = some out →
      (Bundler.new env options).output = out ∧
      ∀ p f, out.path = some p → out.filename = some f →
        ∀ fuel ops, bundle env (Bundler.new env options) fuel = some (.ok (), ops) →
          ∃ code, ops.getLast? = some (.writeFile
            (PosixPath.resolve env.cwd [PosixPath.resolve env.cwd [p], "./" ++ f]) code)) := by
  refine ⟨rfl, rfl, ?_, ?_⟩
  · intro hnone
    have hout : (Bundler.new env options).output =
        { path := some "./dist", filename := some "bundle.js" } := by
      simp [Bundler.new, hnone]
    refine ⟨hout, ?_⟩
    intro fuel ops h
    have := bundle_last_write env (Bundler.new env options) fuel ops "./dist" (by rw [hout]) h
    rw [hout] at this
    exact this
  · intro out hsome
    have hout : (Bundler.new env options).output = out := by
      simp [Bundler.new, hsome]
    refine ⟨hout, ?_⟩
    intro p f hp hf fuel ops h
    have := bundle_last_write env (Bundler.new env options) fuel ops p (by rw [hout]; exact hp) h
    rw [hout, hf] at this
    exact this

set_option maxRecDepth 100000 in
/-- The amended configuration statement at the single-file project: without
options the bundle goes to `/proj/dist/bundle.js`, with both output fields
given it goes to `/proj/out/app.js`. -/
theorem constructor_defaults_witness :
    (∃ code, ([FsOp.mkdir "/proj/dist",
        FsOp.writeFile "/proj/dist/bundle.js"
          (bundleTemplate "./src/index.js"
            (singleEnv.stringify
              { props := [("./src/index.js", { dependencies := [], code := "I" })],
                proto := none }))]).getLast? =
      some (.writeFile
        (PosixPath.resolve singleEnv.cwd [PosixPath.resolve singleEnv.cwd ["./dist"], "./bundle.js"])
        code)) ∧
    (Bundler.new singleEnv fullOptions).output =
      { path := some "./out", filename := some "app.js" } :=
  ⟨((constructor_defaults singleEnv { entry := none, output := none }).2.2.1 rfl).2 5 _
      (by decide),
    ((constructor_defaults singleEnv fullOptions).2.2.2 _ rfl).1⟩

/-! ## The emitted loader -/

theorem updateObject_length (os : List (List (String × String))) (id : Nat)
    (name value : String) : (updateObject os id name value).length = os.length := by
  induction os generalizing id with
  | nil => rfl
  | cons o os ih =>
    cases id with
    | zero => rfl
    | succ id => simp [updateObject, ih]

theorem extends_refl (rt : Runtime) : Extends rt rt [] := by
  simp [Extends]

theorem extends_trans (a b c : Runtime) (l1 l2 : List (String × Nat))
    (h1 : Extends a b l1) (h2 : Extends b c l2) : Extends a c (l1 ++ l2) := by
  obtain ⟨e1, n1, r1⟩ := h1
  obtain ⟨e2, n2, r2⟩ := h2
  refine ⟨by rw [e2, e1, List.append_assoc], by rw [n2, n1, List.length_append]; omega, ?_⟩
  rw [List.map_append, r1, r2, n1, List.length_append, List.range'_append_1, Nat.add_comm]

theorem extends_cons (rt rt2 rt3 : Runtime) (key : String) (log : List (String × Nat))
    (hobj : rt2.objects.length = rt.objects.length + 1)
    (hev : rt2.evals = rt.evals ++ [(key, rt.objects.length)])
    (h : Extends rt2 rt3 log) : Extends rt rt3 ((key, rt.objects.length) :: log) := by
  have h0 : Extends rt rt2 [(key, rt.objects.length)] := by
    refine ⟨hev, by simpa using hobj, ?_⟩
    simp [List.range'_succ]
  exact extends_trans rt rt2 rt3 _ _ h0 h

/-- What holds of a completed call of `run` for the key `key`. -/
theorem run_spec (graph : List (String × ModuleRecord)) (sem : String → List Effect)
    (fuel : Nat) :
    ∀ (v : JsVal) (rt : Runtime) (o : Nat) (rt1 : Runtime),
      run graph sem fuel v rt = some (.ok (o, rt1)) →
      o = rt.objects.length ∧
      ∃ log, Extends rt rt1 ((propertyKey v, o) :: log) ∧
        ∀ d, (propertyKey v :: log.map Prod.fst).count d =
          (if propertyKey v = d then 1 else 0) +
            ((propertyKey v :: log.map Prod.fst).map (fun x => reqCount graph sem x d)).sum := by
  induction fuel with
  | zero =>
    intro v rt o rt1 h
    simp [run] at h
  | succ fuel ih =>
    intro v rt o rt1 h
    rw [run] at h
    simp only at h
    cases hg : objGet graph (propertyKey v) with
    | some record =>
      simp only [hg] at h
      have hexec : ∀ (L : List Effect) (r r1 : Runtime),
          execCode (fun path r => run graph sem fuel (getProp record.dependencies path) r)
            rt.objects.length L r = some (.ok r1) →
          ∃ T, Extends r r1 T ∧
            ∀ d, (T.map Prod.fst).count d =
              (L.filter (fun e => requireTarget record e == some d)).length +
                ((T.map Prod.fst).map (fun x => reqCount graph sem x d)).sum := by
        intro L
        induction L with
        | nil =>
          intro r r1 hr
          simp only [execCode, Option.some.injEq, Except.ok.injEq] at hr
          subst hr
          exact ⟨[], extends_refl r, by simp⟩
        | cons e rest ihL =>
          intro r r1 hr
          cases e with
          | require path =>
            rw [execCode] at hr
            cases hq : run graph sem fuel (getProp record.dependencies path) r with
            | none => simp [hq] at hr
            | some res =>
              cases res with
              | error u => simp [hq] at hr
              | ok pr =>
                obtain ⟨o2, r2⟩ := pr
                simp only [hq] at hr
                obtain ⟨ho2, E, hE, hcount⟩ := ih _ r o2 r2 hq
                obtain ⟨T2, hT2, hcount2⟩ := ihL r2 r1 hr
                refine ⟨(propertyKey (getProp record.dependencies path), o2) :: E ++ T2,
                  extends_trans r r2 r1 _ _ hE hT2, ?_⟩
                intro d
                have h1 := hcount d
                have h2 := hcount2 d
                simp only [List.map_cons, List.map_append, List.count_append, List.sum_append,
                  List.cons_append, List.filter_cons, requireTarget, beq_iff_eq,
                  Option.some.injEq] at h1 h2 ⊢
                rw [List.count_cons] at h1 ⊢
                rw [List.count_append]
                simp only [List.sum_cons, List.sum_append] at h1 ⊢
                by_cases hk : propertyKey (getProp record.dependencies path) = d
                · simp only [hk, if_true, beq_self_eq_true, List.length_cons] at h1 ⊢
                  omega
                · have hk2 : (propertyKey (getProp record.dependencies path) == d) = false := by
                    simpa using hk
                  simp only [hk, hk2, if_false] at h1 ⊢
                  omega
          | assign name value =>
            rw [execCode] at hr
            obtain ⟨T2, ⟨e2, n2, r2⟩, hcount2⟩ := ihL _ r1 hr
            simp only [updateObject_length] at n2 r2
            refine ⟨T2, ⟨e2, n2, r2⟩, ?_⟩
            intro d
            rw [hcount2 d]
            simp [List.filter_cons, requireTarget]
      cases he : execCode
          (fun path r => run graph sem fuel (getProp record.dependencies path) r)
          rt.objects.length (sem record.code)
          { objects := rt.objects ++ [[]],
            evals := rt.evals ++ [(propertyKey v, rt.objects.length)] } with
      | none => simp [he] at h
      | some res =>
        cases res with
        | error u => simp [he] at h
        | ok rt3 =>
          simp only [he, Option.some.injEq, Except.ok.injEq, Prod.mk.injEq] at h
          obtain ⟨ho, hrt⟩ := h
          subst hrt
          subst ho
          obtain ⟨T, hT, hcount⟩ := hexec _ _ _ he
          refine ⟨rfl, T, extends_cons rt _ rt3 _ T (by simp) rfl hT, ?_⟩
          intro d
          have h1 := hcount d
          have hrc : reqCount graph sem (propertyKey v) d =
              ((sem record.code).filter (fun e => requireTarget record e == some d)).length := by
            simp [reqCount, hg]
          rw [List.count_cons, List.map_cons, List.sum_cons, h1, hrc]
          by_cases hk : propertyKey v = d
          · simp only [hk, if_true, beq_self_eq_true]
            omega
          · have hk2 : (propertyKey v == d) = false := by simpa using hk
            simp only [hk, hk2, if_false, Bool.false_eq_true]
            omega
    | none =>
      simp only [hg] at h
      split at h
      · simp only [Option.some.injEq, Except.ok.injEq, Prod.mk.injEq] at h
        obtain ⟨ho, hrt⟩ := h
        subst hrt
        subst ho
        refine ⟨rfl, [], ⟨by simp, by simp, by simp [List.range'_succ]⟩, ?_⟩
        intro d
        have hrc : reqCount graph sem (propertyKey v) d = 0 := by simp [reqCount, hg]
        simp only [List.map_nil, List.count_cons, List.count_nil, List.map_cons, List.sum_cons,
          List.sum_nil, hrc]
        by_cases hk : propertyKey v = d
        · simp [hk]
        · have hk2 : (propertyKey v == d) = false := by simpa using hk
          simp [hk, hk2]
      · simp at h

theorem run_completes (graph : List (String × ModuleRecord)) (sem : String → List Effect)
    (n : Nat) :
    ∀ (v : JsVal), requireBounded graph sem n (propertyKey v) = true →
      ∀ fuel, n ≤ fuel → ∀ rt, ∃ o rt1, run graph sem fuel v rt = some (.ok (o, rt1)) := by
  induction n with
  | zero =>
    intro v h
    simp [requireBounded] at h
  | succ n ih =>
    intro v h fuel hfuel rt
    obtain ⟨f, hf⟩ : ∃ f, fuel = f + 1 := ⟨fuel - 1, by omega⟩
    subst hf
    rw [run]
    simp only
    rw [requireBounded] at h
    cases hg : objGet graph (propertyKey v) with
    | some record =>
      simp only [hg, List.all_eq_true] at h ⊢
      have hexec : ∀ (L : List Effect), (∀ e ∈ L, e ∈ sem record.code) → ∀ (ex : Nat) (r : Runtime),
          ∃ r1, execCode (fun path r => run graph sem f (getProp record.dependencies path) r)
            ex L r = some (.ok r1) := by
        intro L
        induction L with
        | nil => exact fun _ ex r => ⟨r, rfl⟩
        | cons e rest ihL =>
          intro hsub ex r
          have hrest := ihL (fun x hx => hsub x (List.mem_cons_of_mem _ hx)) ex
          cases e with
          | require path =>
            have hb := h _ (hsub _ (List.mem_cons_self _ _))
            simp only [requireTarget] at hb
            obtain ⟨o2, r2, hq⟩ := ih (getProp record.dependencies path) hb f (by omega) r
            obtain ⟨r1, hr1⟩ := hrest r2
            exact ⟨r1, by rw [execCode]; simp only [hq]; exact hr1⟩
          | assign name value =>
            obtain ⟨r1, hr1⟩ := hrest
              { r with objects := updateObject r.objects ex name value }
            exact ⟨r1, by rw [execCode]; exact hr1⟩
      obtain ⟨r1, hr1⟩ := hexec (sem record.code) (fun e he => he) rt.objects.length
        { objects := rt.objects ++ [[]],
          evals := rt.evals ++ [(propertyKey v, rt.objects.length)] }
      exact ⟨rt.objects.length, r1, by simp only [hr1]⟩
    | none =>
      simp only [hg] at h ⊢
      exact ⟨rt.objects.length,
        { objects := rt.objects ++ [[]],
          evals := rt.evals ++ [(propertyKey v, rt.objects.length)] },
        by simp only [h, if_true]⟩

theorem two_le_sum_of_mem (f : String → Nat) (l : List String) (a b : String)
    (ha : a ∈ l) (hb : b ∈ l) (hab : a ≠ b) : f a + f b ≤ (l.map f).sum := by
  induction l with
  | nil => simp at ha
  | cons x xs ih =>
    have hmem : ∀ c, c ∈ xs → f c ≤ (xs.map f).sum := fun c hc =>
      List.single_le_sum (fun _ _ => Nat.zero_le _) _ (List.mem_map_of_mem f hc)
    simp only [List.map_cons, List.sum_cons]
    rcases List.mem_cons.mp ha with ha1 | ha1
    · rcases List.mem_cons.mp hb with hb1 | hb1
      · exact absurd (ha1.trans hb1.symm) hab
      · have := hmem b hb1
        rw [ha1]
        omega
    · rcases List.mem_cons.mp hb with hb1 | hb1
      · have := hmem a ha1
        rw [hb1]
        omega
      · have := ih ha1 hb1
        omega

theorem two_entries_of_count (log : List (String × Nat)) (d : String)
    (hn : (log.map Prod.snd).Nodup) (hc : 2 ≤ (log.map Prod.fst).count d) :
    ∃ o1 o2, o1 ≠ o2 ∧ (d, o1) ∈ log ∧ (d, o2) ∈ log := by
  induction log with
  | nil => simp at hc
  | cons e rest ih =>
    obtain ⟨x, i⟩ := e
    simp only [List.map_cons, List.nodup_cons] at hn
    by_cases hx : x = d
    · subst hx
      have hpos : 0 < (rest.map Prod.fst).count x := by
        simp only [List.map_cons, List.count_cons_self] at hc
        omega
      obtain ⟨e2, he2, hfst⟩ := List.mem_map.mp (List.count_pos_iff.mp hpos)
      obtain ⟨y, j⟩ := e2
      simp only at hfst
      subst hfst
      refine ⟨i, j, ?_, by simp, by simp [he2]⟩
      intro hij
      subst hij
      exact hn.1 (List.mem_map_of_mem Prod.snd he2)
    · have hc2 : 2 ≤ (rest.map Prod.fst).count d := by
        simp only [List.map_cons] at hc
        rw [List.count_cons] at hc
        have hx2 : (x == d) = false := by simpa using hx
        simp only [hx2, Bool.false_eq_true, if_false] at hc
        omega
      obtain ⟨o1, o2, hne, h1, h2⟩ := ih hn.2 hc2
      exact ⟨o1, o2, hne, List.mem_cons_of_mem _ h1, List.mem_cons_of_mem _ h2⟩

/-- C6 (runtime loader semantics): when the chains of `require` calls below a
module are bounded and reach only modules of the graph, `run(m)` completes.
Every completed call `run(m)` makes a new `exports` object and returns it; the
call logs one run of the code of `m` with that object, before the runs made by
the modules it requires, which all get later objects; no two runs share an
object; for every module `d` the number of runs of the code of `d` is one if
`d` is `m`, plus the number of `require` calls, in all the code that ran, that
resolve to `d` through the `dependencies` of the module that makes the call.
So `run` is not memoized: when two different modules that ran both require
`d`, the code of `d` ran at least twice, with two distinct `exports` objects. -/
theorem loader_runs_unmemoized (graph : List (String × ModuleRecord))
    (sem : String → List Effect) :
    (∀ n m, requireBounded graph sem n m = true → ∀ fuel, n ≤ fuel → ∀ rt,
      ∃ o rt1, run graph sem fuel (.str m) rt = some (.ok (o, rt1))) ∧
    (∀ fuel m rt o rt1, run graph sem fuel (.str m) rt = some (.ok (o, rt1)) →
      o = rt.objects.length ∧
      ∃ log, rt1.evals = rt.evals ++ (m, o) :: log ∧
        rt1.objects.length = rt.objects.length + 1 + log.length ∧
        (∀ e ∈ log, o < e.2) ∧
        (((m, o) :: log).map Prod.snd).Nodup ∧
        (∀ d, (m :: log.map Prod.fst).count d =
          (if m = d then 1 else 0) +
            ((m :: log.map Prod.fst).map (fun x => reqCount graph sem x d)).sum) ∧
        (∀ d m1 m2, m1 ≠ m2 → m1 ∈ m :: log.map Prod.fst → m2 ∈ m :: log.map Prod.fst →
          0 < reqCount graph sem m1 d → 0 < reqCount graph sem m2 d →
          ∃ o1 o2, o1 ≠ o2 ∧ (d, o1) ∈ (m, o) :: log ∧ (d, o2) ∈ (m, o) :: log)) := by
  constructor
  · intro n m h fuel hfuel rt
    exact run_completes graph sem n (.str m) h fuel hfuel rt
  · intro fuel m rt o rt1 h
    obtain ⟨ho, log, ⟨hev, hlen, hids⟩, hcount⟩ := run_spec graph sem fuel (.str m) rt o rt1 h
    simp only [propertyKey] at hev hlen hids hcount
    have hnodup : (((m, o) :: log).map Prod.snd).Nodup := by
      rw [hids]
      exact List.nodup_range' _ _
    refine ⟨ho, log, hev, by rw [hlen, List.length_cons]; omega, ?_, hnodup, hcount, ?_⟩
    · intro e he
      have hmem : e.2 ∈ List.range' (rt.objects.length + 1) log.length := by
        have h2 : log.map Prod.snd = List.range' (rt.objects.length + 1) log.length := by
          simp only [List.map_cons, List.length_cons, List.range'_succ] at hids
          exact (List.cons.inj hids).2
        rw [← h2]
        exact List.mem_map_of_mem Prod.snd he
      rw [List.mem_range'_1] at hmem
      omega
    · intro d m1 m2 hne h1 h2 hr1 hr2
      apply two_entries_of_count _ d hnodup
      have hsum := two_le_sum_of_mem (fun x => reqCount graph sem x d) _ m1 m2 h1 h2 hne
      have hc := hcount d
      simp only [List.map_cons] at hc ⊢
      rw [hc]
      simp only [List.map_cons] at hsum
      omega

/-- The loader at the diamond project: the `require` chains below the entry
are bounded by 3, the run of the entry completes, and the shared module
`src/lib/d.js`, required by `src/b.js` and by `src/c.js`, runs twice, with the
distinct objects at positions 2 and 4. -/
theorem loader_runs_unmemoized_witness :
    requireBounded diamondGraph.props diamondSem 3 "./src/a.js" = true ∧
    (∃ o rt1, run diamondGraph.props diamondSem 5 (.str "./src/a.js")
      { objects := [], evals := [] } = some (.ok (o, rt1))) ∧
    run diamondGraph.props diamondSem 5 (.str "./src/a.js") { objects := [], evals := [] } =
      some (.ok (0,
        { objects := [[("a", "1")], [("b", "1")], [("default", "2")], [("c", "1")],
            [("default", "2")]],
          evals := [("./src/a.js", 0), ("src/b.js", 1), ("src/lib/d.js", 2), ("src/c.js", 3),
            ("src/lib/d.js", 4)] })) ∧
    (0 = ([] : List (List (String × String))).length ∧
      ∃ log, [("./src/a.js", 0), ("src/b.js", 1), ("src/lib/d.js", 2), ("src/c.js", 3),
            ("src/lib/d.js", 4)] = ([] : List (String × Nat)) ++ ("./src/a.js", 0) :: log ∧
        5 = ([] : List (List (String × String))).length + 1 + log.length ∧
        (∀ e ∈ log, 0 < e.2) ∧
        ((("./src/a.js", 0) :: log).map Prod.snd).Nodup ∧
        (∀ d, ("./src/a.js" :: log.map Prod.fst).count d =
          (if "./src/a.js" = d then 1 else 0) +
            (("./src/a.js" :: log.map Prod.fst).map
              (fun x => reqCount diamondGraph.props diamondSem x d)).sum) ∧
        (∀ d m1 m2, m1 ≠ m2 → m1 ∈ "./src/a.js" :: log.map Prod.fst →
          m2 ∈ "./src/a.js" :: log.map Prod.fst →
          0 < reqCount diamondGraph.props diamondSem m1 d →
          0 < reqCount diamondGraph.props diamondSem m2 d →
          ∃ o1 o2, o1 ≠ o2 ∧ (d, o1) ∈ ("./src/a.js", 0) :: log ∧
            (d, o2) ∈ ("./src/a.js", 0) :: log)) :=
  ⟨by decide,
    (loader_runs_unmemoized diamondGraph.props diamondSem).1 3 "./src/a.js" (by decide) 5
      (by decide) { objects := [], evals := [] },
    by decide,
    (loader_runs_unmemoized diamondGraph.props diamondSem).2 5 "./src/a.js"
      { objects := [], evals := [] } 0
      { objects := [[("a", "1")], [("b", "1")], [("default", "2")], [("c", "1")],
          [("default", "2")]],
        evals := [("./src/a.js", 0), ("src/b.js", 1), ("src/lib/d.js", 2), ("src/c.js", 3),
          ("src/lib/d.js", 4)] }
      (by decide)⟩

end Minipack
